import Mathlib

/-!
Verification development for the shared-everything pseudo-dynamic linker of
`crates/wit-component/src/linking.rs` (the `Linker::encode` pipeline).

The Rust source is shallowly embedded below: pure functions become Lean
functions, the mutable builders (`TypeSection`, `ExportSection`, buffers,
offset counters) become explicit state threading, `u32` arithmetic is
modelled on `Nat` (the source panics via `try_from(...).unwrap()` on
overflow, so accepted inputs stay in range and no wrap-around occurs),
and fallible code returns `Except`.

Metadata extraction (`Metadata::try_new`, module `metadata`, not present in
the sources) and the component encoder (`crate::encoding::ComponentEncoder`)
are external collaborators; they are modelled from the specification where
noted.

Iteration over Rust `HashMap`/`HashSet` has no specified order.  Where an
iteration order is observable in the output (the passthrough-export loop of
`make_env_module`), the embedding takes the order as an explicit parameter
ranging over all permutations of the map entries; elsewhere the embedding
fixes insertion order, and the theorems' hypotheses make the choice
irrelevant.
-/

/-- Core wasm value types (from `metadata::ValueType`). -/
inductive ValueType
  | i32
  | i64
  | f32
  | f64
deriving DecidableEq, Repr, Inhabited

/-- Function signature (from `metadata::FunctionType`). -/
structure FunctionType where
  parameters : List ValueType
  results : List ValueType
deriving DecidableEq, Repr, Inhabited

/-- Global type (from `metadata::GlobalType`). -/
structure GlobalType where
  ty : ValueType
  mutable : Bool
deriving DecidableEq, Repr, Inhabited

/-- Export type (from `metadata::Type`; named `Ty` since `Type` is reserved). -/
inductive Ty
  | function (ty : FunctionType)
  | global (g : GlobalType)
deriving DecidableEq, Repr, Inhabited

/-- Whether a `Ty` is a function type. -/
def Ty.isFunction : Ty → Bool
  | .function _ => true
  | .global _ => false

/-- Export key: name plus type (from `metadata::ExportKey`). -/
structure ExportKey where
  name : String
  ty : Ty
deriving DecidableEq, Repr, Inhabited

/-- An export with its symbol flags (from `metadata::Export`). -/
structure Export where
  key : ExportKey
  flags : Nat
deriving DecidableEq, Repr, Inhabited

/-- A raw import (from `metadata::Import`). -/
structure Import where
  module : String
  name : String
  ty : Ty
deriving DecidableEq, Repr, Inhabited

/-- Memory/table size and alignment requirements (from `metadata::MemInfo`);
alignments are log2 as in the dynamic-linking tool convention. -/
structure MemInfo where
  memory_size : Nat
  memory_alignment : Nat
  table_size : Nat
  table_alignment : Nat
deriving DecidableEq, Repr, Inhabited

/-- Per-library linking metadata (from `metadata::Metadata`).  Modelled from
the spec: `Metadata::try_new` (module `metadata`, absent from the sources)
parses a library's dynamic-linking custom sections into this record; the
linker is verified over already-extracted metadata. -/
structure Metadata where
  name : String
  dl_openable : Bool
  exports : List Export
  imports : List Import
  env_imports : List (String × FunctionType × Nat)
  memory_address_imports : List String
  table_address_imports : List String
  needed_libs : List String
  mem_info : MemInfo
  has_data_relocs : Bool
  has_ctors : Bool
  has_set_libraries : Bool
  has_component_exports : Bool
deriving DecidableEq, Repr

/-- The empty metadata record (used as the out-of-range default where the
source would panic on a bad index). -/
def emptyMetadata : Metadata :=
  ⟨"", false, [], [], [], [], [], [], ⟨0, 0, 0, 0⟩, false, false, false, false⟩

instance : Inhabited Metadata := ⟨emptyMetadata⟩

/-- Constant `PAGE_SIZE_BYTES` from the source. -/
def PAGE_SIZE_BYTES : Nat := 65536

/-- Constant `STACK_SIZE_BYTES` from the source (16 pages, matching LLVM's
default stack size). -/
def STACK_SIZE_BYTES : Nat := 16 * PAGE_SIZE_BYTES

/-- Constant `HEAP_ALIGNMENT_BYTES` from the source. -/
def HEAP_ALIGNMENT_BYTES : Nat := 16

/-- Constant `WASM_SYM_BINDING_WEAK` from `wasmparser` (the `wasmparser`
symbol-flag definitions are not among the sources; the tool convention
defines the weak-binding bit as `0x1`). -/
def WASM_SYM_BINDING_WEAK : Nat := 1

/-- Source `fn align(a, b) = (a + (b - 1)) & !(b - 1)` for `b` a power of
two; on `Nat` the mask by `!(b-1)` is clearing the residue mod `b`. -/
def align (a b : Nat) : Nat := (a + (b - 1)) - (a + (b - 1)) % b

/-- UTF-8 bytes of a string (Rust `str::as_bytes`). -/
def strBytes (s : String) : List Nat :=
  s.toUTF8.toList.map (fun b => b.toNat)

/-- Source `write_u32`: little-endian bytes of a `u32`. -/
def u32Bytes (v : Nat) : List Nat :=
  [v % 256, v / 256 % 256, v / 65536 % 256, v / 16777216 % 256]

/-- Source `write_bytes_padded`: the bytes followed by zero padding up to a
multiple of four. -/
def bytesPadded (bs : List Nat) : List Nat :=
  bs ++ List.replicate (align bs.length 4 - bs.length) 0

/-- Insert `x` into an already sorted list, after every element `y` with
`le y x` (so elements with equal keys keep their original order). -/
def insertSorted (le : α → α → Bool) (x : α) : List α → List α
  | [] => [x]
  | y :: l => if le y x then y :: insertSorted le x l else x :: y :: l

/-- Stable sort with respect to the total preorder decided by `le` (insertion
sort).  Rust's `sort_by_key` is a stable sort, and a stable sort's output is
uniquely determined by the preorder, so this computes exactly the source's
result. -/
def stableSort (le : α → α → Bool) (l : List α) : List α :=
  l.foldl (fun acc x => insertSorted le x acc) []

/-- Source `enum Address`: a symbol's lookup-table value is either a function
table index or a global whose address is fixed up at init time. -/
inductive DlAddress
  | function (idx : Nat)
  | global (name : String)
deriving DecidableEq, Repr

/-- Source `struct DlOpenables`. -/
structure DlOpenables where
  tableBase : Nat
  memoryBase : Nat
  buffer : List Nat
  globalAddresses : List (String × String × Nat)
  functionCount : Nat
  librariesAddress : Nat
deriving DecidableEq, Repr

/-- First pass of `DlOpenables::new` over one library's exports: write each
export's (padded) name bytes, assigning function exports consecutive table
slots.  State: buffer and running function count. -/
def dlSymbolsPass (memoryBase tableBase : Nat) :
    List Export → List Nat → Nat → List (String × Nat × DlAddress) × List Nat × Nat
  | [], buffer, fc => ([], buffer, fc)
  | e :: rest, buffer, fc =>
      let nameAddress := memoryBase + buffer.length
      let buffer := buffer ++ bytesPadded (strBytes e.key.name)
      let (addr, fc) :=
        match e.key.ty with
        | .function _ => (DlAddress.function (tableBase + fc), fc + 1)
        | .global _ => (DlAddress.global e.key.name, fc)
      let (syms, buffer, fc) := dlSymbolsPass memoryBase tableBase rest buffer fc
      ((e.key.name, nameAddress, addr) :: syms, buffer, fc)

/-- Second pass of `DlOpenables::new` over one library's (sorted) symbols:
write the 12-byte `{name_len, name_addr, value}` records, enqueuing a fixup
for each global placeholder.  State: buffer and global-address fixups. -/
def dlWriteSymbolRecords (memoryBase : Nat) (libName : String) :
    List (String × Nat × DlAddress) → List Nat → List (String × String × Nat) →
    List Nat × List (String × String × Nat)
  | [], buffer, ga => (buffer, ga)
  | (name, nameAddress, addr) :: rest, buffer, ga =>
      let buffer := buffer ++ u32Bytes (strBytes name).length ++ u32Bytes nameAddress
      match addr with
      | .function a =>
          dlWriteSymbolRecords memoryBase libName rest (buffer ++ u32Bytes a) ga
      | .global gname =>
          let ga := ga ++ [(libName, gname, memoryBase + buffer.length)]
          dlWriteSymbolRecords memoryBase libName rest (buffer ++ u32Bytes 0) ga

/-- Per-library loop of `DlOpenables::new` (over the `dl_openable` libraries,
in input order): write the library name, its symbol names, then its sorted
symbol-record array.  Returns the per-library tuples
`(name, name_address, export_count, symbols_address)` plus the final state. -/
def dlLibrariesPass (memoryBase tableBase : Nat) :
    List Metadata → List Nat → Nat → List (String × String × Nat) →
    List (String × Nat × Nat × Nat) × List Nat × Nat × List (String × String × Nat)
  | [], buffer, fc, ga => ([], buffer, fc, ga)
  | md :: rest, buffer, fc, ga =>
      let nameAddress := memoryBase + buffer.length
      let buffer := buffer ++ bytesPadded (strBytes md.name)
      let (syms, buffer, fc) := dlSymbolsPass memoryBase tableBase md.exports buffer fc
      let symsSorted := stableSort (fun a b => decide (a.1 ≤ b.1)) syms
      let start := buffer.length
      let (buffer, ga) := dlWriteSymbolRecords memoryBase md.name symsSorted buffer ga
      let (libs, buffer, fc, ga) := dlLibrariesPass memoryBase tableBase rest buffer fc ga
      ((md.name, nameAddress, md.exports.length, memoryBase + start) :: libs, buffer, fc, ga)

/-- Source `DlOpenables::new`: build the `dlopen`/`dlsym` lookup table for
all `dl_openable` libraries at the given table and memory offsets. -/
def DlOpenables.new (tableBase memoryBase : Nat) (metadata : List Metadata) : DlOpenables :=
  let (libs, buffer, fc, ga) :=
    dlLibrariesPass memoryBase tableBase (metadata.filter (·.dl_openable)) [] 0 []
  let libsSorted := stableSort (fun a b => decide (a.1 ≤ b.1)) libs
  let start := buffer.length
  let buffer := libsSorted.foldl
    (fun buf l =>
      buf ++ u32Bytes (strBytes l.1).length ++ u32Bytes l.2.1 ++
        u32Bytes l.2.2.1 ++ u32Bytes l.2.2.2)
    buffer
  let librariesAddress := memoryBase + buffer.length
  let buffer := buffer ++ u32Bytes libsSorted.length ++ u32Bytes (memoryBase + start)
  ⟨tableBase, memoryBase, buffer, ga, fc, librariesAddress⟩

/-- Wasm instructions used by the synthesized modules (from `wasm_encoder`). -/
inductive Ins
  | localGet (i : Nat)
  | i32Const (v : Nat)
  | callIndirect (tyIdx tableIdx : Nat)
  | end'
  | unreachable
  | globalGet (i : Nat)
  | globalSet (i : Nat)
  | i32Add
  | i32Store (offset alignLog memIdx : Nat)
  | call (f : Nat)
deriving DecidableEq, Repr

/-- Export kinds (from `wasm_encoder::ExportKind`). -/
inductive ExportKind
  | func
  | table
  | memory
  | global
deriving DecidableEq, Repr

/-- Source `ExportKind::from(&import.ty)`. -/
def exportKindOfTy : Ty → ExportKind
  | .function _ => .func
  | .global _ => .global

/-- An imported entity in the synthesized env module. -/
inductive EntityTy
  | function (tyIdx : Nat)
  | global (g : GlobalType)
deriving DecidableEq, Repr

/-- One entry of the env module's import section. -/
structure ImportEntry where
  module : String
  name : String
  ty : EntityTy
deriving DecidableEq, Repr

/-- One entry of the env module's export section. -/
structure ExportEntry where
  name : String
  kind : ExportKind
  index : Nat
deriving DecidableEq, Repr

/-- The synthesized env ("main") module, as its section contents. -/
structure EnvModule where
  types : List FunctionType
  imports : List ImportEntry
  functions : List Nat
  code : List (List Ins)
  tableMinimum : Nat
  memoryMinimum : Nat
  globals : List (GlobalType × Nat)
  exports : List ExportEntry
deriving DecidableEq, Repr

/-- Enumerate a list starting at index `n` (the running counters of the
source's section builders). -/
def enumFrom (n : Nat) : List α → List (Nat × α)
  | [] => []
  | a :: l => (n, a) :: enumFrom (n + 1) l

/-- State of the import-deduplication loop of `make_env_module` (the
`types`/`imports` sections, the `import_map`, and the `global_offset`
counter). -/
structure EnvImports where
  types : List FunctionType
  imports : List ImportEntry
  importMap : List (Import × Nat)
  globalOffset : Nat
deriving DecidableEq, Repr

/-- One step of the import loop of `make_env_module`: skip imports already in
`import_map`; otherwise record a function import (whose `import_map` value is
the index of its freshly added type, numerically its function index) or a
global import (whose value is the next global-import index). -/
def addEnvImport (s : EnvImports) (imp : Import) : EnvImports :=
  if (s.importMap.find? (fun e => e.1 = imp)).isSome then s
  else
    match imp.ty with
    | .function ty =>
        { types := s.types ++ [ty]
          imports := s.imports ++ [⟨imp.module, imp.name, .function s.types.length⟩]
          importMap := s.importMap ++ [(imp, s.types.length)]
          globalOffset := s.globalOffset }
    | .global g =>
        { types := s.types
          imports := s.imports ++ [⟨imp.module, imp.name, .global g⟩]
          importMap := s.importMap ++ [(imp, s.globalOffset)]
          globalOffset := s.globalOffset + 1 }

/-- The import loop of `make_env_module` over every library's raw imports. -/
def envImportPass (metadata : List Metadata) : EnvImports :=
  metadata.foldl (fun s md => md.imports.foldl addEnvImport s) ⟨[], [], [], 0⟩

/-- Per-library result of the global-layout loop of `make_env_module`: the
aligned bases assigned to the library, together with the data needed to emit
its globals. -/
structure LibLayout where
  name : String
  memoryBase : Nat
  tableBase : Nat
  memInfo : MemInfo
  memoryAddressImports : List String
deriving DecidableEq, Repr

/-- The global-layout loop of `make_env_module` (lines 271-292): walk the
libraries in input order, aligning and advancing the running memory and table
offsets; returns the per-library layouts and the final offsets. -/
def envLayout : List Metadata → Nat → Nat → List LibLayout × Nat × Nat
  | [], m, t => ([], m, t)
  | md :: rest, m, t =>
      let mb := align m (2 ^ md.mem_info.memory_alignment)
      let tb := align t (2 ^ md.mem_info.table_alignment)
      let r := envLayout rest (mb + md.mem_info.memory_size) (tb + md.mem_info.table_size)
      (⟨md.name, mb, tb, md.mem_info, md.memory_address_imports⟩ :: r.1, r.2.1, r.2.2)

/-- The globals a single library contributes in the layout loop: its
immutable `memory_base`/`table_base` and a zero-initialized mutable global
per `GOT.mem` import. -/
def libGlobals (l : LibLayout) : List (String × GlobalType × Nat) :=
  (l.name ++ ":memory_base", ⟨.i32, false⟩, l.memoryBase) ::
  (l.name ++ ":table_base", ⟨.i32, false⟩, l.tableBase) ::
  l.memoryAddressImports.map (fun i => (l.name ++ ":" ++ i, ⟨.i32, true⟩, 0))

/-- First-match association lookup (`HashMap::get` on a map whose keys are
unique in every use site). -/
def assocFind (l : List (String × Nat)) (k : String) : Option Nat :=
  (l.find? (fun e => e.1 = k)).map (·.2)

/-- The `GOT.func` globals of `make_env_module` (lines 294-310): each
`table_address_imports` symbol becomes a mutable global holding the table
slot its function was assigned among the re-exported functions.  The source
indexes `offsets` with `.unwrap()`; absent names (which the `encode` pipeline
rules out) default to 0 here. -/
def tableAddrGlobals (metadata : List Metadata) (functionExports : List (String × FunctionType × Nat))
    (tabAfter : Nat) : List (String × GlobalType × Nat) :=
  let offsets := (enumFrom 0 functionExports).map (fun p => (p.2.1, tabAfter + p.1))
  metadata.flatMap (fun md =>
    md.table_address_imports.map (fun imp =>
      (md.name ++ ":" ++ imp, (⟨.i32, true⟩ : GlobalType), (assocFind offsets imp).getD 0)))

/-- The full ordered list of `(name, type, init)` globals the env module
declares and exports (stack pointer, per-library bases and `GOT.mem` cells,
`GOT.func` cells, then the heap bounds), mirroring the `add_global_export`
call sequence. -/
def envGlobalsList (metadata : List Metadata) (functionExports : List (String × FunctionType × Nat))
    (layouts : List LibLayout) (memAfter tabAfter : Nat) : List (String × GlobalType × Nat) :=
  ("__stack_pointer", (⟨.i32, true⟩ : GlobalType), STACK_SIZE_BYTES) ::
    layouts.flatMap libGlobals ++
    tableAddrGlobals metadata functionExports tabAfter ++
    [("__heap_base", ⟨.i32, true⟩, align memAfter HEAP_ALIGNMENT_BYTES),
     ("__heap_end", ⟨.i32, true⟩, align (align memAfter HEAP_ALIGNMENT_BYTES) PAGE_SIZE_BYTES)]

/-- Body of the i-th indirection thunk (lines 330-339): push the parameters,
push the target table slot, `call_indirect` through table 0. -/
def thunkBody (ty : FunctionType) (slot tyIdx : Nat) : List Ins :=
  (List.range ty.parameters.length).map Ins.localGet ++
    [Ins.i32Const slot, Ins.callIndirect tyIdx 0, Ins.end']

/-- The canonical `cabi_realloc` signature `(i32,i32,i32,i32) -> i32`. -/
def cabiReallocTy : FunctionType := ⟨[.i32, .i32, .i32, .i32], [.i32]⟩

/-- The env module's type section after the optional `cabi_realloc` import
(lines 241-249). -/
def envTypesB (metadata : List Metadata) (cabiReallocExporter : Option String) :
    List FunctionType :=
  match cabiReallocExporter with
  | some _ => (envImportPass metadata).types ++ [cabiReallocTy]
  | none => (envImportPass metadata).types

/-- The env module's import section after the optional `cabi_realloc`
import. -/
def envImportsB (metadata : List Metadata) (cabiReallocExporter : Option String) :
    List ImportEntry :=
  match cabiReallocExporter with
  | some exporter =>
      (envImportPass metadata).imports ++
        [⟨exporter, "cabi_realloc", .function (envImportPass metadata).types.length⟩]
  | none => (envImportPass metadata).imports

/-- The `cabi_realloc` re-export, when a provider exists (the source exports
it at `types.len() - 1`, numerically its function index). -/
def envCabiExports (metadata : List Metadata) (cabiReallocExporter : Option String) :
    List ExportEntry :=
  match cabiReallocExporter with
  | some _ => [⟨"cabi_realloc", .func, (envImportPass metadata).types.length⟩]
  | none => []

/-- Source `make_env_module`, with the iteration order of the final
`for (import, offset) in import_map` loop (a `HashMap` traversal, whose order
the language does not fix) supplied as the explicit argument `passOrder`. -/
def makeEnvModuleWith (metadata : List Metadata)
    (functionExports : List (String × FunctionType × Nat))
    (cabiReallocExporter : Option String)
    (passOrder : List (Import × Nat)) : EnvModule × DlOpenables × Nat :=
  let typesB := envTypesB metadata cabiReallocExporter
  let importsB := envImportsB metadata cabiReallocExporter
  let cabiExports := envCabiExports metadata cabiReallocExporter
  let dlo := DlOpenables.new 0 STACK_SIZE_BYTES metadata
  let memStart := STACK_SIZE_BYTES + dlo.buffer.length
  let tabStart := 0 + dlo.functionCount
  let (layouts, memAfter, tabAfter) := envLayout metadata memStart tabStart
  let globalsList := envGlobalsList metadata functionExports layouts memAfter tabAfter
  let globalExports := (enumFrom 0 globalsList).map
    (fun p => (⟨p.2.1, .global, p.1⟩ : ExportEntry))
  let types := typesB ++ functionExports.map (fun f => f.2.1)
  let functions := (List.range functionExports.length).map (fun i => typesB.length + i)
  let code := (enumFrom 0 functionExports).map
    (fun p => thunkBody p.2.2.1 (tabAfter + p.1) (typesB.length + p.1))
  let thunkExports := (enumFrom 0 functionExports).map
    (fun p => (⟨p.2.1, .func, typesB.length + p.1⟩ : ExportEntry))
  let passExports := passOrder.map
    (fun q => (⟨q.1.module ++ ":" ++ q.1.name, exportKindOfTy q.1.ty, q.2⟩ : ExportEntry))
  let exports := cabiExports ++ globalExports ++ thunkExports ++ passExports ++
    [⟨"__indirect_function_table", .table, 0⟩, ⟨"memory", .memory, 0⟩]
  (⟨types, importsB, functions, code,
     tabAfter + functionExports.length,
     align (align memAfter HEAP_ALIGNMENT_BYTES) PAGE_SIZE_BYTES / PAGE_SIZE_BYTES,
     globalsList.map (fun g => (g.2.1, g.2.2)),
     exports⟩,
   dlo, tabAfter)

/-- Source `make_env_module` with the insertion-order traversal of
`import_map` (one admissible realization of the `HashMap` iteration).
The source ends `make_env_module` with `wasmparser::validate(&module).unwrap()`
(line 394); that final step is `envModuleValid` below, checked by the
`encode` pipeline where it consumes this builder's output. -/
def makeEnvModule (metadata : List Metadata)
    (functionExports : List (String × FunctionType × Nat))
    (cabiReallocExporter : Option String) : EnvModule × DlOpenables × Nat :=
  makeEnvModuleWith metadata functionExports cabiReallocExporter
    (envImportPass metadata).importMap

/-- Modelled from the spec: the trailing `wasmparser::validate(&module)`
call of `make_env_module` (the validator crate is not among the sources;
the spec records only that synthesized modules are validated after emission
and that a failure is an assertion).  Core-wasm validation requires the
names of a module's exports to be pairwise distinct; every other
well-formedness clause holds for the synthesized env module by construction
(every index a section entry mentions is allocated by the builder itself),
so the validator is modelled by the export-name clause.  The `unwrap` on the
result makes a failure a panic. -/
def envModuleValid (m : EnvModule) : Bool :=
  (m.exports.map (fun e => e.name)).Nodup

/-- Errors surfaced by the linker pipeline (the `anyhow` errors of the
source; `internalPanic` stands for places where the source would panic via
`unwrap` and `fuelExhausted` is the artifact of modelling the source's
re-entrant `encode` calls and loops with fuel). -/
inductive LinkError
  | duplicateAdapterName
  | missingLibraries (l : List (String × List String))
  | unresolvedSymbols (l : List (String × Export))
  | duplicateSymbols (l : List (String × ExportKey × List (String × Export)))
  | missingExporter (name : String)
  | internalPanic (what : String)
  | fuelExhausted
deriving DecidableEq, Repr

/-- The `entry(key).or_default().push(value)` step of `resolve_exporters`:
append to an existing key's exporter list (keeping its position) or add a new
entry at the end. -/
def insertExporterEntry (l : List (ExportKey × List (String × Export))) (k : ExportKey)
    (v : String × Export) : List (ExportKey × List (String × Export)) :=
  if (l.find? (fun e => e.1 = k)).isSome then
    l.map (fun e => if e.1 = k then (e.1, e.2 ++ [v]) else e)
  else l ++ [(k, [v])]

/-- Source `resolve_exporters`: the symbol-to-exporters multimap over every
library's exports, realized as an insertion-ordered association list. -/
def resolveExporters (metadata : List Metadata) : List (ExportKey × List (String × Export)) :=
  metadata.foldl
    (fun acc md => md.exports.foldl (fun acc e => insertExporterEntry acc e.key (md.name, e)) acc)
    []

/-- The `cabi_realloc` export key the source looks up before resolution. -/
def cabiReallocKey : ExportKey :=
  ⟨"cabi_realloc", .function ⟨[.i32, .i32, .i32, .i32], [.i32]⟩⟩

/-- The `cabi_realloc` special case of `Linker::encode` (lines 1152-1165):
if some library exports `cabi_realloc` with the canonical signature, collapse
its exporter list to the first entry and remember that exporter. -/
def collapseCabiRealloc (exporters : List (ExportKey × List (String × Export))) :
    Option String × List (ExportKey × List (String × Export)) :=
  match exporters.find? (fun e => e.1 = cabiReallocKey) with
  | none => (none, exporters)
  | some e =>
      match e.2 with
      | [] => (none, exporters)
      | first :: _ =>
          (some first.1,
           exporters.map (fun p => if p.1 = cabiReallocKey then (p.1, [first]) else p))

/-- `HashMap::insert` on the resolved map: replace in place or append. -/
def insertResolved (l : List (ExportKey × String × Export)) (k : ExportKey)
    (v : String × Export) : List (ExportKey × String × Export) :=
  if (l.find? (fun e => e.1 = k)).isSome then
    l.map (fun e => if e.1 = k then (k, v.1, v.2) else e)
  else l ++ [(k, v.1, v.2)]

/-- Outcome buckets of `resolve_symbols`. -/
structure ResolveState where
  resolved : List (ExportKey × String × Export)
  missing : List (String × Export)
  duplicates : List (String × ExportKey × List (String × Export))
deriving DecidableEq, Repr

/-- The `triage` closure of `resolve_symbols`: a single exporter resolves the
import, several exporters record a duplicate, none records it missing.  (The
source marks an empty exporter list `unreachable!`; `resolve_exporters` never
produces one, and it is ignored here.) -/
def triage (exporters : List (ExportKey × List (String × Export))) (st : ResolveState)
    (importerName : String) (e : Export) : ResolveState :=
  match exporters.find? (fun p => p.1 = e.key) with
  | some p =>
      match p.2 with
      | [] => st
      | [exporter] => { st with resolved := insertResolved st.resolved p.1 exporter }
      | l => { st with duplicates := st.duplicates ++ [(importerName, p.1, l)] }
  | none => { st with missing := st.missing ++ [(importerName, e)] }

/-- The name-keyed map of function exporters built at the top of
`resolve_symbols` (`HashMap` collected from an unordered traversal; a name
carried by several function keys keeps the last entry of the realization
fixed here), as its lookup function. -/
def functionExportersFind (exporters : List (ExportKey × List (String × Export)))
    (name : String) : Option (ExportKey × List (String × Export)) :=
  (exporters.filter (fun e => e.1.name == name && e.1.ty.isFunction)).getLast?

/-- One `GOT.func` import of `resolve_symbols` (lines 790-816): matched by
function name only (adopting the exporter's signature); an unmatched name is
recorded missing with the empty signature and flags 0. -/
def gotFuncStep (exporters : List (ExportKey × List (String × Export)))
    (importerName : String) (st : ResolveState) (n : String) : ResolveState :=
  match functionExportersFind exporters n with
  | some p =>
      match p.2 with
      | [] => st
      | [exporter] => { st with resolved := insertResolved st.resolved p.1 exporter }
      | l => { st with duplicates := st.duplicates ++ [(importerName, p.1, l)] }
  | none =>
      { st with missing := st.missing ++ [(importerName, ⟨⟨n, .function ⟨[], []⟩⟩, 0⟩)] }

/-- All `GOT.func` imports of one library. -/
def gotFuncPass (exporters : List (ExportKey × List (String × Export)))
    (st : ResolveState) (md : Metadata) : ResolveState :=
  md.table_address_imports.foldl (gotFuncStep exporters md.name) st

/-- Source `resolve_symbols`: classify every `env` function import and
`GOT.mem` global import by full key, then every `GOT.func` import by function
name only (adopting the exporter's signature; an unmatched name is recorded
missing with the empty signature and flags 0). -/
def resolveSymbols (metadata : List Metadata)
    (exporters : List (ExportKey × List (String × Export))) : ResolveState :=
  let st : ResolveState := ⟨[], [], []⟩
  let st := metadata.foldl
    (fun st md =>
      let st := md.env_imports.foldl
        (fun st p => triage exporters st md.name ⟨⟨p.1, .function p.2.1⟩, p.2.2⟩) st
      md.memory_address_imports.foldl
        (fun st n => triage exporters st md.name ⟨⟨n, .global ⟨.i32, false⟩⟩, 0⟩) st)
    st
  metadata.foldl (fun st md => gotFuncPass exporters st md) st

/-- Source `find_function_exporter` on the resolved map. -/
def findFunctionExporter (name : String) (ty : FunctionType)
    (resolved : List (ExportKey × String × Export)) : Option (String × Export) :=
  (resolved.find? (fun e => e.1 = (⟨name, .function ty⟩ : ExportKey))).map (·.2)

/-- Source `find_offset_exporter` on the resolved map. -/
def findOffsetExporter (name : String)
    (resolved : List (ExportKey × String × Export)) : Option (String × Export) :=
  (resolved.find? (fun e => e.1 = (⟨name, .global ⟨.i32, false⟩⟩ : ExportKey))).map (·.2)

/-- The `indexes` name-to-offset map the source builds by inserting each
library under its name in input order (a duplicated name keeps the last
index; an absent name, on which the source would panic, yields 0). -/
def libIndex (metadata : List Metadata) (name : String) : Nat :=
  (enumFrom 0 metadata).foldl (fun acc p => if p.2.name = name then p.1 else acc) 0

/-- `HashSet` insertion into a dependency entry of `find_dependencies`. -/
def addDep (deps : List (String × List String)) (k v : String) : List (String × List String) :=
  if (deps.find? (fun e => e.1 = k)).isSome then
    deps.map (fun e => if e.1 = k then (e.1, if v ∈ e.2 then e.2 else e.2 ++ [v]) else e)
  else deps ++ [(k, [v])]

/-- The direct-dependency pass of `find_dependencies`: each library depends
on its `needed_libs` and on the exporter of each of its `env` imports. -/
def directDependencies (metadata : List Metadata)
    (resolved : List (ExportKey × String × Export)) :
    Except LinkError (List (String × List String)) :=
  metadata.foldlM
    (fun deps md => do
      let deps := md.needed_libs.foldl (fun deps n => addDep deps md.name n) deps
      md.env_imports.foldlM
        (fun deps p =>
          match findFunctionExporter p.1 p.2.1 resolved with
          | some (ename, _) => pure (addDep deps md.name ename)
          | none => throw (.missingExporter p.1))
        deps)
    []

/-- Lookup in the index-keyed dependency map
(`dependencies.get(&i).unwrap_or(empty)`). -/
def depsLookup (deps : List (Nat × List Nat)) (i : Nat) : List Nat :=
  ((deps.find? (fun e => e.1 = i)).map (·.2)).getD []

/-- Set-semantics deduplication of a list (collecting into a `HashSet`). -/
def dedupKeepLeft (l : List Nat) : List Nat :=
  l.foldl (fun acc x => if x ∈ acc then acc else acc ++ [x]) []

/-- One round of the transitive-closure loop of `find_dependencies`: add to
each entry the dependencies of its dependencies (computed against the
current map, excluding those already present). -/
def closureOnce (deps : List (Nat × List Nat)) : List (Nat × List Nat) :=
  deps.map (fun e =>
    (e.1,
     e.2 ++
       (e.2.flatMap (fun d => depsLookup deps d)).foldl
         (fun acc d2 => if d2 ∈ e.2 ∨ d2 ∈ acc then acc else acc ++ [d2]) []))

/-- The closure loop of `find_dependencies`, iterated to a fixed point (the
source loops until no new pair appears; each round adds at least one pair,
so quadratic fuel reaches the fixed point). -/
def closureIter : Nat → List (Nat × List Nat) → List (Nat × List Nat)
  | 0, deps => deps
  | fuel + 1, deps =>
      let deps' := closureOnce deps
      if deps' = deps then deps else closureIter fuel deps'

/-- Source `find_dependencies`: direct dependencies re-keyed to library
offsets, transitively closed. -/
def findDependencies (metadata : List Metadata)
    (resolved : List (ExportKey × String × Export)) :
    Except LinkError (List (Nat × List Nat)) := do
  let direct ← directDependencies metadata resolved
  let idx := direct.map
    (fun e => (libIndex metadata e.1, dedupKeepLeft (e.2.map (libIndex metadata))))
  pure (closureIter (metadata.length * metadata.length + 1) idx)

/-- `IndexSet::insert`: append if absent. -/
def insertIdem (l : List Nat) (x : Nat) : List Nat := if x ∈ l then l else l ++ [x]

/-- Source `topo_add`: recursively place `element` after the dependencies
that do not depend on it and before the ones that do.  The source recursion
terminates because the dependency map it receives is transitively closed;
the recursion is modelled with fuel. -/
def topoAdd (deps : Nat → List Nat) : Nat → List Nat → Nat → List Nat
  | 0, sorted, _ => sorted
  | fuel + 1, sorted, element =>
      let s1 := (deps element).foldl
        (fun s d => if d ∈ s ∨ element ∈ deps d then s else topoAdd deps fuel s d) sorted
      let s2 := insertIdem s1 element
      (deps element).foldl
        (fun s d => if d ∈ s ∨ element ∉ deps d then s else topoAdd deps fuel s d) s2

/-- Fuel sufficient for `topoAdd` on a transitively closed dependency map
over `0..count` (one more than the maximal value of the termination
measure, plus one top-level step). -/
def topoSortFuel (count : Nat) : Nat := count * (count + 2) + count + 2

/-- Source `topo_sort`: fold `topo_add` over all library offsets. -/
def topoSort (count : Nat) (deps : Nat → List Nat) : List Nat :=
  (List.range count).foldl (fun s i => topoAdd deps (topoSortFuel count) s i) []

/-- Fold a fallible step over a list, stopping at the first error (the
`Except`-specialized `foldlM`, written with explicit constructors so the
fold reduces definitionally). -/
def foldE (f : β → α → Except ε β) : β → List α → Except ε β
  | b, [] => .ok b
  | b, a :: l =>
      match f b a with
      | .error e => .error e
      | .ok b' => foldE f b' l

/-- The name-keyed function map built at the top of `env_function_exports`
from the resolved map (same `HashMap`-collect realization as
`functionExportersFind`). -/
def resolvedFunctionFind (resolved : List (ExportKey × String × Export)) (name : String) :
    Option (FunctionType × String) :=
  ((resolved.filter (fun e => e.1.name == name && e.1.ty.isFunction)).getLast?).bind
    (fun e =>
      match e.1.ty with
      | .function ty => some (ty, e.2.1)
      | .global _ => none)

/-- State of the `env_function_exports` walk. -/
structure EFEState where
  result : List (String × FunctionType × Nat)
  exported : List String
  seen : List Nat
deriving DecidableEq, Repr

/-- One `GOT.func` import of the `env_function_exports` walk: re-export
every not-yet-exported symbol.  (The source panics where `internalPanic` is
thrown.) -/
def efeTableStep (metadata : List Metadata) (resolved : List (ExportKey × String × Export))
    (st : EFEState) (name : String) : Except LinkError EFEState :=
  if name ∈ st.exported then .ok st
  else
    match resolvedFunctionFind resolved name with
    | none => .error (.missingExporter name)
    | some (ty, exporter) =>
        .ok { st with
          result := st.result ++ [(name, ty, libIndex metadata exporter)]
          exported := st.exported ++ [name] }

/-- One `env` import of the `env_function_exports` walk: a not-yet-exported
symbol is re-exported exactly when its exporter has not been seen yet (the
current library is added to `seen` only after its imports are processed). -/
def efeEnvStep (metadata : List Metadata) (resolved : List (ExportKey × String × Export))
    (st : EFEState) (p : String × FunctionType × Nat) : Except LinkError EFEState :=
  if p.1 ∈ st.exported then .ok st
  else
    match findFunctionExporter p.1 p.2.1 resolved with
    | none => .error (.internalPanic "find_function_exporter")
    | some (ename, _) =>
        let exporter := libIndex metadata ename
        if exporter ∈ st.seen then .ok st
        else
          .ok { st with
            result := st.result ++ [(p.1, p.2.1, exporter)]
            exported := st.exported ++ [p.1] }

/-- Per-library step of `env_function_exports`. -/
def efeStep (metadata : List Metadata) (resolved : List (ExportKey × String × Export))
    (st : EFEState) (index : Nat) : Except LinkError EFEState :=
  let md := metadata.getD index emptyMetadata
  match foldE (efeTableStep metadata resolved) st md.table_address_imports with
  | .error e => .error e
  | .ok st =>
      match foldE (efeEnvStep metadata resolved) st md.env_imports with
      | .error e => .error e
      | .ok st => .ok { st with seen := st.seen ++ [index] }

/-- Source `env_function_exports`: walk the libraries in topological order,
collecting the functions the env module must re-export through indirection
thunks. -/
def envFunctionExports (metadata : List Metadata)
    (resolved : List (ExportKey × String × Export)) (topoSorted : List Nat) :
    Except LinkError (List (String × FunctionType × Nat)) :=
  match foldE (efeStep metadata resolved) ⟨[], [], []⟩ topoSorted with
  | .error e => .error e
  | .ok st => .ok st.result

/-- The synthesized stub module, as its section contents. -/
structure StubModule where
  types : List FunctionType
  functions : List Nat
  exports : List (String × Nat)
  code : List (List Ins)
deriving DecidableEq, Repr

/-- One step of `make_stubs_module`: one trap-only exported function per
missing symbol, with the signature recorded at the import site.  (The source
panics on a non-function entry; its only caller guarantees every entry is a
function, and non-function entries are skipped here.) -/
def stubStep (m : StubModule) (p : Nat × String × Export) : StubModule :=
  match p.2.2.key.ty with
  | .function ty =>
      { types := m.types ++ [ty]
        functions := m.functions ++ [p.1]
        exports := m.exports ++ [(p.2.2.key.name, p.1)]
        code := m.code ++ [[Ins.unreachable, Ins.end']] }
  | .global _ => m

/-- Source `make_stubs_module` body: fold `stubStep` over the enumerated
missing list. -/
def makeStubsModule (missing : List (String × Export)) : StubModule :=
  (enumFrom 0 missing).foldl stubStep ⟨[], [], [], []⟩

/-- Modelled from the spec: the metadata that `Metadata::try_new` (module
`metadata`, absent from the sources) extracts from the stub module
synthesized by `make_stubs_module` - its exports are exactly the stub
functions (strong bindings), and it imports, needs and initializes
nothing. -/
def stubMetadata (missing : List (String × Export)) : Metadata :=
  { emptyMetadata with
    name := "wit-component:stubs"
    exports := missing.filterMap (fun p =>
      match p.2.key.ty with
      | .function ty => some ⟨⟨p.2.key.name, .function ty⟩, 0⟩
      | .global _ => none) }

/-- Source `find_reachable`: the names of the libraries reachable from a
component-exporting or dlopen-able root. -/
def findReachable (metadata : List Metadata) (deps : List (Nat × List Nat)) : List String :=
  let roots := (enumFrom 0 metadata).filterMap
    (fun p => if p.2.has_component_exports ∨ p.2.dl_openable then some p.1 else none)
  (roots ++ roots.flatMap (fun i => depsLookup deps i)).map
    (fun i => (metadata.getD i emptyMetadata).name)

/-- Set-semantics deduplication of a string list. -/
def dedupStr (l : List String) : List String :=
  l.foldl (fun acc x => if x ∈ acc then acc else acc ++ [x]) []

/-- Builder state for the init module's import section (`add_global_import`
and `add_function_import` memoize on `(module, name)`). -/
structure InitBuild where
  imports : List ImportEntry
  globalMap : List ((String × String) × Nat)
  globalCount : Nat
  functionMap : List ((String × String) × Nat)
  functionCount : Nat
deriving DecidableEq, Repr

/-- Source `add_global_import` closure of `make_init_module`. -/
def addGlobalImport (b : InitBuild) (module name : String) (mutable : Bool) :
    InitBuild × Nat :=
  match (b.globalMap.find? (fun e => e.1 = (module, name))).map (·.2) with
  | some i => (b, i)
  | none =>
      ({ b with
          imports := b.imports ++ [⟨module, name, .global ⟨.i32, mutable⟩⟩]
          globalMap := b.globalMap ++ [((module, name), b.globalCount)]
          globalCount := b.globalCount + 1 },
       b.globalCount)

/-- Source `add_function_import` closure of `make_init_module`. -/
def addFunctionImport (b : InitBuild) (module name : String) (tyIdx : Nat) :
    InitBuild × Nat :=
  match (b.functionMap.find? (fun e => e.1 = (module, name))).map (·.2) with
  | some i => (b, i)
  | none =>
      ({ b with
          imports := b.imports ++ [⟨module, name, .function tyIdx⟩]
          functionMap := b.functionMap ++ [((module, name), b.functionCount)]
          functionCount := b.functionCount + 1 },
       b.functionCount)

/-- The synthesized init module, as its section contents (the start
function's body is `memoryAddressInits ++ relocCalls ++ ctorCalls` followed
by `end`; the two active element segments and the active data segment are
kept with their offsets). -/
structure InitModule where
  types : List FunctionType
  imports : List ImportEntry
  startIndex : Nat
  memoryAddressInits : List Ins
  relocCalls : List Ins
  ctorCalls : List Ins
  dlOpenableFunctions : List Nat
  indirections : List Nat
  tableBase : Nat
  indirectionTableBase : Nat
  dataOffset : Nat
  dataBytes : List Nat
deriving DecidableEq, Repr

/-- Source `make_init_module`: synthesize the module that fixes up the
dlopen table's global-address slots, initializes the `GOT.mem` env globals,
applies data relocations, runs constructors and `__wasm_set_libraries`, and
populates the dlopen and indirection regions of the shared table. -/
def makeInitModule (metadata : List Metadata)
    (resolved : List (ExportKey × String × Export))
    (functionExports : List (String × FunctionType × Nat))
    (dlOpenables : DlOpenables) (indirectionTableBase : Nat) :
    Except LinkError InitModule := do
  let types : List FunctionType :=
    [⟨[], []⟩, ⟨[.i32], []⟩] ++
      (metadata.filter (·.dl_openable)).flatMap (fun md =>
        md.exports.filterMap (fun e =>
          match e.key.ty with
          | .function ty => some ty
          | .global _ => none)) ++
      functionExports.map (fun f => f.2.1)
  let b : InitBuild := ⟨[], [], 0, [], 0⟩
  let (b, memoryAddressInits) := dlOpenables.globalAddresses.foldl
    (fun (p : InitBuild × List Ins) ga =>
      let (b, ins) := p
      let (b, g1) := addGlobalImport b "env" (ga.1 ++ ":memory_base") false
      let (b, g2) := addGlobalImport b ga.1 ga.2.1 false
      (b,
       ins ++
         [Ins.i32Const ga.2.2, Ins.globalGet g1, Ins.globalGet g2, Ins.i32Add,
          Ins.i32Store 0 2 0]))
    (b, [])
  let ((b, memoryAddressInits, relocCalls, ctorCalls) :
      InitBuild × List Ins × List Ins × List Ins) ←
    metadata.foldlM
      (fun (p : InitBuild × List Ins × List Ins × List Ins) md => do
        let (b, mai, rc, cc) := p
        let (b, rc) :=
          if md.has_data_relocs then
            let (b, f) := addFunctionImport b md.name "__wasm_apply_data_relocs" 0
            (b, rc ++ [Ins.call f])
          else (b, rc)
        let (b, cc) :=
          if md.has_ctors then
            let (b, f) := addFunctionImport b md.name "__wasm_call_ctors" 0
            (b, cc ++ [Ins.call f])
          else (b, cc)
        let (b, cc) :=
          if md.has_set_libraries then
            let (b, f) := addFunctionImport b md.name "__wasm_set_libraries" 1
            (b, cc ++ [Ins.i32Const dlOpenables.librariesAddress, Ins.call f])
          else (b, cc)
        let (b, mai) ←
          md.memory_address_imports.foldlM
            (fun (p : InitBuild × List Ins) imp => do
              let (b, mai) := p
              match findOffsetExporter imp resolved with
              | none => throw (.missingExporter imp)
              | some (exporter, _) =>
                  let (b, g1) := addGlobalImport b "env" (exporter ++ ":memory_base") false
                  let (b, g2) := addGlobalImport b exporter imp false
                  let (b, g3) := addGlobalImport b "env" (md.name ++ ":" ++ imp) true
                  pure (b,
                    mai ++ [Ins.globalGet g1, Ins.globalGet g2, Ins.i32Add, Ins.globalSet g3]))
            (b, mai)
        pure (b, mai, rc, cc))
      (b, memoryAddressInits, [], [])
  let ((b, typeOffset, dlOpenableFunctions) : InitBuild × Nat × List Nat) :=
    (metadata.filter (·.dl_openable)).foldl
      (fun (p : InitBuild × Nat × List Nat) md =>
        md.exports.foldl
          (fun (p : InitBuild × Nat × List Nat) e =>
            let (b, ty, fs) := p
            match e.key.ty with
            | .function _ =>
                let (b, f) := addFunctionImport b md.name e.key.name ty
                (b, ty + 1, fs ++ [f])
            | .global _ => p)
          p)
      (b, 2, [])
  let ((b, _, indirections) : InitBuild × Nat × List Nat) :=
    functionExports.foldl
      (fun (p : InitBuild × Nat × List Nat) f =>
        let (b, ty, fs) := p
        let (b, fi) := addFunctionImport b (metadata.getD f.2.2 emptyMetadata).name f.1 ty
        (b, ty + 1, fs ++ [fi]))
      (b, typeOffset, [])
  pure
    ⟨types, b.imports, b.functionCount, memoryAddressInits, relocCalls, ctorCalls,
      dlOpenableFunctions, indirections, dlOpenables.tableBase, indirectionTableBase,
      dlOpenables.memoryBase, dlOpenables.buffer⟩

/-- From `crate::encoding`: whether an aliased item comes from the main
module or a named adapter/library instance. -/
inductive MainOrAdapter
  | main
  | adapter (name : String)
deriving DecidableEq, Repr

/-- From `crate::encoding`: one aliased item of an instance argument. -/
structure Item where
  alias' : String
  kind : ExportKind
  which : MainOrAdapter
  name : String
deriving DecidableEq, Repr

/-- From `crate::encoding`: an instance argument. -/
inductive Instance'
  | items (l : List Item)
  | mainOrAdapter (m : MainOrAdapter)
deriving DecidableEq, Repr

/-- From `crate::encoding`: per-library instantiation data. -/
structure LibraryInfo where
  instantiate_after_shims : Bool
  arguments : List (String × Instance')
deriving DecidableEq, Repr

/-- Modelled from the spec: the component produced by the external
`crate::encoding::ComponentEncoder` collaborator, recorded as the data the
linker feeds it (the env module, the adapters, each library with its
instantiation arguments in registration order - the `__init` library last -
and the init module). -/
structure Component where
  envModule : EnvModule
  adapters : List String
  libraries : List (String × LibraryInfo)
  initModule : InitModule
deriving DecidableEq, Repr

/-- Source `struct Linker` (the builder).  A library is held as its
already-extracted `Metadata` (see `Metadata` above); an adapter is held as
its name (its bytes are opaque to the linking pipeline). -/
structure Linker where
  libraries : List Metadata
  adapters : List String
  validate : Bool
  stub_missing_functions : Bool
deriving DecidableEq, Repr

/-- The three default env items every library instance receives. -/
def defaultEnvItems : List Item :=
  [⟨"memory", .memory, .main, "memory"⟩,
   ⟨"__indirect_function_table", .table, .main, "__indirect_function_table"⟩,
   ⟨"__stack_pointer", .global, .main, "__stack_pointer"⟩]

/-- The instantiation arguments `Linker::encode` supplies for one library
(lines 1259-1347): the `env` instance (defaults, this library's bases, and
each `env` function import aliased from the main module unless its exporter
is already instantiated), the `GOT.mem` and `GOT.func` instances, and one
instance per raw-import module (in sorted module order, as a `BTreeMap`). -/
def libraryArguments (md : Metadata) (resolved : List (ExportKey × String × Export))
    (seen : List String) : Except LinkError (List (String × Instance')) := do
  let envItems ←
    md.env_imports.foldlM
      (fun acc p => do
        match findFunctionExporter p.1 p.2.1 resolved with
        | none => throw (.internalPanic "find_function_exporter")
        | some (exporter, _) =>
            pure (acc ++
              [(⟨p.1, .func,
                  if exporter ∈ seen then .adapter exporter else .main, p.1⟩ : Item)]))
      (defaultEnvItems ++
        [⟨"__memory_base", .global, .main, md.name ++ ":memory_base"⟩,
         ⟨"__table_base", .global, .main, md.name ++ ":table_base"⟩])
  let globalItem := fun (addressName : String) =>
    (⟨addressName, .global, .main, md.name ++ ":" ++ addressName⟩ : Item)
  let memItems :=
    md.memory_address_imports.map globalItem ++
      [⟨"__heap_base", .global, .main, "__heap_base"⟩,
       ⟨"__heap_end", .global, .main, "__heap_end"⟩]
  let funcItems := md.table_address_imports.map globalItem
  let modules : List String :=
    stableSort (fun a b => decide (a ≤ b)) (dedupStr (md.imports.map (·.module)))
  let importInstances := modules.map (fun m =>
    (m, Instance'.items ((md.imports.filter (fun i => i.module == m)).map (fun i =>
      (⟨i.name, exportKindOfTy i.ty, .main, i.module ++ ":" ++ i.name⟩ : Item)))))
  pure
    ([("GOT.mem", .items memItems), ("GOT.func", .items funcItems),
      ("env", .items envItems)] ++ importInstances)

/-- The missing-needed-libraries check of `Linker::encode` (lines 1121-1148). -/
def missingNeededLibs (metadata : List Metadata) : List (String × List String) :=
  let names := metadata.map (·.name)
  metadata.filterMap (fun md =>
    let missing := md.needed_libs.filter (fun n => n ∉ names)
    if missing = [] then none else some (md.name, missing))

/-- The stub-insertion condition of `Linker::encode` (lines 1170-1176):
every missing symbol is a function, and either stubbing was requested or
every missing symbol is weak. -/
def stubCondition (stubMissingFunctions : Bool) (missing : List (String × Export)) : Bool :=
  missing.all (fun p => p.2.key.ty.isFunction) &&
    (stubMissingFunctions ||
      missing.all (fun p => p.2.flags &&& WASM_SYM_BINDING_WEAK ≠ 0))

/-- The non-weak entries of the missing set, as reported by the
`unresolved symbol(s)` error (line 1190). -/
def nonWeakMissing (missing : List (String × Export)) : List (String × Export) :=
  missing.filter (fun p => p.2.flags &&& WASM_SYM_BINDING_WEAK = 0)

/-- Source `Linker::encode`.  The source restarts itself after appending a
stub library or pruning unreachable libraries; the self-calls are modelled
with explicit fuel (`Linker.encode` below supplies enough for the at most
two restarts the source performs).  The final component is the record of
everything fed to the external encoder collaborator. -/
def encodeFuel : Nat → Linker → Except LinkError Component
  | 0, _ => .error .fuelExhausted
  | fuel + 1, st =>
    if ¬ st.adapters.Nodup then .error .duplicateAdapterName
    else
      let metadata := st.libraries
      if missingNeededLibs metadata ≠ [] then .error (.missingLibraries (missingNeededLibs metadata))
      else
        let cabiReallocExporter := (collapseCabiRealloc (resolveExporters metadata)).1
        let exporters := (collapseCabiRealloc (resolveExporters metadata)).2
        let rs := resolveSymbols metadata exporters
        if rs.missing ≠ [] then
          if stubCondition st.stub_missing_functions rs.missing then
            encodeFuel fuel
              { st with
                  stub_missing_functions := false
                  libraries := st.libraries ++ [stubMetadata rs.missing] }
          else .error (.unresolvedSymbols (nonWeakMissing rs.missing))
        else if rs.duplicates ≠ [] then .error (.duplicateSymbols rs.duplicates)
        else
          match findDependencies metadata rs.resolved with
          | .error e => .error e
          | .ok dependencies =>
            let reachable := findReachable metadata dependencies
            if (st.libraries.filter (fun md => md.name ∉ reachable)) ≠ [] then
              encodeFuel fuel
                { st with libraries := st.libraries.filter (fun md => md.name ∈ reachable) }
            else
              let topoSorted := topoSort metadata.length (depsLookup dependencies)
              match envFunctionExports metadata rs.resolved topoSorted with
              | .error e => .error e
              | .ok functionExports =>
                let (envModule, dlOpenables, tableBase) :=
                  makeEnvModule metadata functionExports cabiReallocExporter
                if ¬ envModuleValid envModule then .error (.internalPanic "validate")
                else
                let libsStep : List (String × LibraryInfo) × List String → Nat →
                    Except LinkError (List (String × LibraryInfo) × List String) :=
                  fun p index => do
                    let md := metadata.getD index emptyMetadata
                    let args ← libraryArguments md rs.resolved p.2
                    pure
                      (p.1 ++ [(md.name, ⟨false, args⟩)], p.2 ++ [md.name])
                match topoSorted.foldlM libsStep ([], []) with
                | .error e => .error e
                | .ok (libs, _) =>
                  match makeInitModule metadata rs.resolved functionExports dlOpenables tableBase with
                  | .error e => .error e
                  | .ok initModule =>
                    .ok
                      ⟨envModule, st.adapters,
                        libs ++
                          [("__init",
                            ⟨true,
                              ("env", Instance'.mainOrAdapter .main) ::
                                st.libraries.map (fun md =>
                                  (md.name, Instance'.mainOrAdapter (.adapter md.name)))⟩)],
                        initModule⟩

/-- Source `Linker::encode` entry point: the restart chain is bounded (one
stub insertion and one pruning pass), so `length + 3` fuel always suffices. -/
def Linker.encode (st : Linker) : Except LinkError Component :=
  encodeFuel (st.libraries.length + 3) st

/-! ### General lemmas about the helper functions -/

theorem align_mod (a b : Nat) : align a b % b = 0 := by
  have h := Nat.div_add_mod (a + (b - 1)) b
  have h2 : align a b = b * ((a + (b - 1)) / b) := by unfold align; omega
  rw [h2, Nat.mul_mod_right]

theorem le_align (a b : Nat) (hb : 0 < b) : a ≤ align a b := by
  have h := Nat.mod_lt (a + (b - 1)) hb
  unfold align; omega

theorem enumFrom_length (n : Nat) (l : List α) : (enumFrom n l).length = l.length := by
  induction l generalizing n with
  | nil => rfl
  | cons a l ih => simp [enumFrom, ih]

theorem enumFrom_getElem? (n : Nat) (l : List α) (i : Nat) :
    (enumFrom n l)[i]? = l[i]?.map (fun a => (n + i, a)) := by
  induction l generalizing n i with
  | nil => simp [enumFrom]
  | cons a l ih =>
      cases i with
      | zero => simp [enumFrom]
      | succ j =>
          have h : n + 1 + j = n + (j + 1) := by omega
          simp [enumFrom, ih (n + 1) j, h]

theorem enumFrom_append (n : Nat) (l₁ l₂ : List α) :
    enumFrom n (l₁ ++ l₂) = enumFrom n l₁ ++ enumFrom (n + l₁.length) l₂ := by
  induction l₁ generalizing n with
  | nil => simp [enumFrom]
  | cons a l ih =>
      have h : n + 1 + l.length = n + (l.length + 1) := by omega
      simp [enumFrom, ih (n + 1), h]

/-! ### C1: the indirection thunks of the env module -/

/-- C1: for every entry `(name, sig, _)` at position `i` of the indirection
list, the env module's `i`-th synthesized function body pushes the
parameters with `local.get`, pushes the constant
`indirection_table_base + i` (where `indirection_table_base` is the third
component returned by `make_env_module`, the table offset recorded before
any thunk slot was allocated), and performs `call_indirect` on table 0 with
a type index holding exactly the entry's signature. -/
theorem c1_thunk_shape (metadata : List Metadata)
    (fexp : List (String × FunctionType × Nat)) (cabi : Option String)
    (i : Nat) (name : String) (ty : FunctionType) (src : Nat)
    (h : fexp[i]? = some (name, ty, src)) :
    ∃ tyIdx,
      (makeEnvModule metadata fexp cabi).1.code[i]? =
        some ((List.range ty.parameters.length).map Ins.localGet ++
          [Ins.i32Const ((makeEnvModule metadata fexp cabi).2.2 + i),
           Ins.callIndirect tyIdx 0, Ins.end']) ∧
      (makeEnvModule metadata fexp cabi).1.types[tyIdx]? = some ty := by
  refine ⟨(envTypesB metadata cabi).length + i, ?_, ?_⟩
  · simp [makeEnvModule, makeEnvModuleWith, enumFrom_getElem?, h, thunkBody]
  · have hle : (envTypesB metadata cabi).length ≤ (envTypesB metadata cabi).length + i :=
      Nat.le_add_right _ _
    simp [makeEnvModule, makeEnvModuleWith, List.getElem?_append_right hle, h]

/-- Witness for C1 at a concrete one-entry indirection list. -/
theorem c1_thunk_shape_witness :
    ∃ tyIdx,
      (makeEnvModule [] [("g", ⟨[.i32], [.i32]⟩, 1)] none).1.code[0]? =
        some ((List.range (FunctionType.mk [.i32] [.i32]).parameters.length).map Ins.localGet ++
          [Ins.i32Const ((makeEnvModule [] [("g", ⟨[.i32], [.i32]⟩, 1)] none).2.2 + 0),
           Ins.callIndirect tyIdx 0, Ins.end']) ∧
      (makeEnvModule [] [("g", ⟨[.i32], [.i32]⟩, 1)] none).1.types[tyIdx]? =
        some ⟨[.i32], [.i32]⟩ :=
  c1_thunk_shape [] [("g", ⟨[.i32], [.i32]⟩, 1)] none 0 "g" ⟨[.i32], [.i32]⟩ 1 rfl

/-! ### C2: Scenario A memory bases -/

/-- Scenario A, library A: exports `f : (i32) -> i32`, 64 bytes of data,
alignment 0, no table. -/
def scenarioALibA : Metadata :=
  { emptyMetadata with
    name := "libA"
    exports := [⟨⟨"f", .function ⟨[.i32], [.i32]⟩⟩, 0⟩]
    mem_info := ⟨64, 0, 0, 0⟩ }

/-- Scenario A, library B: imports `f` from `env` and contributes a
component export. -/
def scenarioALibB : Metadata :=
  { emptyMetadata with
    name := "libB"
    env_imports := [("f", ⟨[.i32], [.i32]⟩, 0)]
    has_component_exports := true }

/-- The Scenario A linker input (neither library dl-openable). -/
def scenarioALinker : Linker := ⟨[scenarioALibA, scenarioALibB], [], false, false⟩

/-- The env module of an encoding run (the empty module if encoding
failed). -/
def envModuleOf (r : Except LinkError Component) : EnvModule :=
  match r with
  | .ok c => c.envModule
  | .error _ => ⟨[], [], [], [], 0, 0, [], []⟩

/-- The `(type, init)` pair of the env module's exported global of the given
name, found through the export section. -/
def envGlobalEntry (m : EnvModule) (name : String) : Option (GlobalType × Nat) :=
  (m.exports.find? (fun e => e.name == name && e.kind == ExportKind.global)).bind
    (fun e => m.globals[e.index]?)

/-- The init value of the env module's exported global of the given name. -/
def envGlobalValue (m : EnvModule) (name : String) : Option Nat :=
  (envGlobalEntry m name).map (·.2)

/-- The mutability of the env module's exported global of the given name. -/
def envGlobalMutability (m : EnvModule) (name : String) : Option Bool :=
  (envGlobalEntry m name).map (·.1.mutable)

/-- C2 counterexample: on the Scenario A input, the env module exports
`libA:memory_base` with value `STACK_SIZE + 8` - not `STACK_SIZE` as the
claim states (the 8-byte root descriptor of the dlopen lookup table is
always written at `STACK_SIZE` first). -/
theorem c2_counterexample :
    envGlobalValue (envModuleOf scenarioALinker.encode) "libA:memory_base" =
        some 1048584 ∧
      (1048584 : Nat) ≠ STACK_SIZE_BYTES := by
  exact ⟨by rfl, by decide⟩

/-- C2 (amended): on the Scenario A input the env module exports
`libA:memory_base = STACK_SIZE + 8` and `libB:memory_base = STACK_SIZE + 72`
(the dlopen lookup table's 8-byte root descriptor precedes library A's
64-byte region). -/
theorem c2_amended :
    envGlobalValue (envModuleOf scenarioALinker.encode) "libA:memory_base" =
        some (STACK_SIZE_BYTES + 8) ∧
      envGlobalValue (envModuleOf scenarioALinker.encode) "libB:memory_base" =
        some (STACK_SIZE_BYTES + 8 + 64) := by
  exact ⟨by rfl, by rfl⟩

/-! ### C4: determinism of encode -/

/-- A metadata record with two distinct raw imports (so the env module's
`import_map` has two entries whose traversal order is observable). -/
def twoImportsLib : Metadata :=
  { emptyMetadata with
    name := "m0"
    imports := [⟨"m", "a", .function ⟨[], []⟩⟩, ⟨"m", "b", .function ⟨[], []⟩⟩] }

/-- Read an `Except` value under a default (used to name the concrete
realizations exhibited below). -/
def exceptD (e : Except ε α) (d : α) : α :=
  match e with
  | .ok a => a
  | .error _ => d

/-- A component-exporting root that imports `f` and `g` from `env`. -/
def c4CycleMain : Metadata :=
  { emptyMetadata with
    name := "main"
    has_component_exports := true
    env_imports := [("f", ⟨[], []⟩, 0), ("g", ⟨[], []⟩, 0)] }

/-- Exports `f` and imports `g` from `env` (one half of a dependency
cycle). -/
def c4CycleF : Metadata :=
  { emptyMetadata with
    name := "libf"
    exports := [⟨⟨"f", .function ⟨[], []⟩⟩, 0⟩]
    env_imports := [("g", ⟨[], []⟩, 0)] }

/-- Exports `g` and imports `f` from `env` (the other half of the cycle). -/
def c4CycleG : Metadata :=
  { emptyMetadata with
    name := "libg"
    exports := [⟨⟨"g", .function ⟨[], []⟩⟩, 0⟩]
    env_imports := [("f", ⟨[], []⟩, 0)] }

/-- A three-library input whose dependency graph has a cycle under the
root: `main → {libf, libg}`, `libf ↔ libg`. -/
def c4CycleMeta : List Metadata := [c4CycleMain, c4CycleF, c4CycleG]

/-- The resolved symbol map of the cycle input. -/
def c4CycleResolved : List (ExportKey × String × Export) :=
  (resolveSymbols c4CycleMeta (collapseCabiRealloc (resolveExporters c4CycleMeta)).2).resolved

/-- The transitively closed dependency map of the cycle input. -/
def c4CycleDeps : List (Nat × List Nat) :=
  exceptD (findDependencies c4CycleMeta c4CycleResolved) []

/-- One admissible iteration order of the cycle input's dependency sets
(`find_dependencies` returns `HashSet`s, whose per-run traversal order the
language does not fix; this is the insertion-order realization). -/
def c4DepsA (i : Nat) : List Nat := depsLookup c4CycleDeps i

/-- The reversed traversal of the same dependency sets - another admissible
realization of the `HashSet` iteration on another run. -/
def c4DepsB (i : Nat) : List Nat := (depsLookup c4CycleDeps i).reverse

/-- C4 counterexample: two iteration orders of the same `import_map` - both
permutations of its entries, as a `HashMap` traversal may produce on two
runs - yield different env modules (the passthrough exports swap), so
`encode`'s output is not a function of its declared inputs alone. -/
theorem c4_counterexample :
    ((envImportPass [twoImportsLib]).importMap).Perm
        ((envImportPass [twoImportsLib]).importMap) ∧
      ((envImportPass [twoImportsLib]).importMap.reverse).Perm
        ((envImportPass [twoImportsLib]).importMap) ∧
      makeEnvModuleWith [twoImportsLib] [] none
          (envImportPass [twoImportsLib]).importMap ≠
        makeEnvModuleWith [twoImportsLib] [] none
          (envImportPass [twoImportsLib]).importMap.reverse :=
  ⟨List.Perm.refl _, List.reverse_perm _, by decide⟩

/-- C4 (amended): `encode`'s output depends on the iteration order of the
std hash containers it traverses, in at least two places.  First,
`make_env_module`'s `import_map`: for a FIXED function-export list, any two
admissible traversal orders leave every section except the export section
identical, and the export sections differ at most by a permutation of the
contiguous passthrough-export block.  Second, the `HashSet` dependency sets
iterated by `topo_add`: on the cycle input two admissible set orders
(pointwise permutations of each other) yield different topological orders,
different `env_function_exports` lists, and env modules differing in their
type/function/code/export sections - so across runs the difference is NOT
confined to the passthrough block. -/
theorem c4_amended (metadata : List Metadata)
    (fexp : List (String × FunctionType × Nat)) (cabi : Option String)
    (o1 o2 : List (Import × Nat))
    (h1 : o1.Perm (envImportPass metadata).importMap)
    (h2 : o2.Perm (envImportPass metadata).importMap) :
    (makeEnvModuleWith metadata fexp cabi o1).1.types =
        (makeEnvModuleWith metadata fexp cabi o2).1.types ∧
      (makeEnvModuleWith metadata fexp cabi o1).1.imports =
        (makeEnvModuleWith metadata fexp cabi o2).1.imports ∧
      (makeEnvModuleWith metadata fexp cabi o1).1.functions =
        (makeEnvModuleWith metadata fexp cabi o2).1.functions ∧
      (makeEnvModuleWith metadata fexp cabi o1).1.code =
        (makeEnvModuleWith metadata fexp cabi o2).1.code ∧
      (makeEnvModuleWith metadata fexp cabi o1).1.globals =
        (makeEnvModuleWith metadata fexp cabi o2).1.globals ∧
      (makeEnvModuleWith metadata fexp cabi o1).1.tableMinimum =
        (makeEnvModuleWith metadata fexp cabi o2).1.tableMinimum ∧
      (makeEnvModuleWith metadata fexp cabi o1).1.memoryMinimum =
        (makeEnvModuleWith metadata fexp cabi o2).1.memoryMinimum ∧
      (makeEnvModuleWith metadata fexp cabi o1).2 =
        (makeEnvModuleWith metadata fexp cabi o2).2 ∧
      (∃ pre post l1 l2,
        (makeEnvModuleWith metadata fexp cabi o1).1.exports = pre ++ l1 ++ post ∧
          (makeEnvModuleWith metadata fexp cabi o2).1.exports = pre ++ l2 ++ post ∧
          l1.Perm l2) ∧
      (∀ i, (c4DepsB i).Perm (c4DepsA i)) ∧
      topoSort 3 c4DepsA ≠ topoSort 3 c4DepsB ∧
      (envFunctionExports c4CycleMeta c4CycleResolved (topoSort 3 c4DepsA)).isOk = true ∧
      (envFunctionExports c4CycleMeta c4CycleResolved (topoSort 3 c4DepsB)).isOk = true ∧
      exceptD (envFunctionExports c4CycleMeta c4CycleResolved (topoSort 3 c4DepsA)) [] ≠
        exceptD (envFunctionExports c4CycleMeta c4CycleResolved (topoSort 3 c4DepsB)) [] ∧
      (makeEnvModule c4CycleMeta
          (exceptD (envFunctionExports c4CycleMeta c4CycleResolved (topoSort 3 c4DepsA)) [])
          none).1 ≠
        (makeEnvModule c4CycleMeta
            (exceptD (envFunctionExports c4CycleMeta c4CycleResolved (topoSort 3 c4DepsB)) [])
            none).1 := by
  refine ⟨rfl, rfl, rfl, rfl, rfl, rfl, rfl, rfl, ?_,
    fun i => List.reverse_perm _, by decide, by decide, by decide, by decide, by decide⟩
  refine
    ⟨envCabiExports metadata cabi ++
        (enumFrom 0
            (envGlobalsList metadata fexp
              (envLayout metadata
                  (STACK_SIZE_BYTES + (DlOpenables.new 0 STACK_SIZE_BYTES metadata).buffer.length)
                  (0 + (DlOpenables.new 0 STACK_SIZE_BYTES metadata).functionCount)).1
              (envLayout metadata
                  (STACK_SIZE_BYTES + (DlOpenables.new 0 STACK_SIZE_BYTES metadata).buffer.length)
                  (0 + (DlOpenables.new 0 STACK_SIZE_BYTES metadata).functionCount)).2.1
              (envLayout metadata
                  (STACK_SIZE_BYTES + (DlOpenables.new 0 STACK_SIZE_BYTES metadata).buffer.length)
                  (0 + (DlOpenables.new 0 STACK_SIZE_BYTES metadata).functionCount)).2.2)).map
          (fun p => (⟨p.2.1, .global, p.1⟩ : ExportEntry)) ++
        (enumFrom 0 fexp).map
          (fun p => (⟨p.2.1, .func, (envTypesB metadata cabi).length + p.1⟩ : ExportEntry)),
      [⟨"__indirect_function_table", .table, 0⟩, ⟨"memory", .memory, 0⟩],
      o1.map (fun q =>
        (⟨q.1.module ++ ":" ++ q.1.name, exportKindOfTy q.1.ty, q.2⟩ : ExportEntry)),
      o2.map (fun q =>
        (⟨q.1.module ++ ":" ++ q.1.name, exportKindOfTy q.1.ty, q.2⟩ : ExportEntry)),
      ?_, ?_, ?_⟩
  · simp [makeEnvModuleWith, List.append_assoc]
  · simp [makeEnvModuleWith, List.append_assoc]
  · exact (h1.trans h2.symm).map _

/-- Witness for C4 (amended) at the two-import library with the identity
traversal twice. -/
theorem c4_amended_witness :
    (makeEnvModuleWith [twoImportsLib] [] none
          (envImportPass [twoImportsLib]).importMap).1.types =
        (makeEnvModuleWith [twoImportsLib] [] none
            (envImportPass [twoImportsLib]).importMap).1.types ∧
      (makeEnvModuleWith [twoImportsLib] [] none
            (envImportPass [twoImportsLib]).importMap).1.imports =
          (makeEnvModuleWith [twoImportsLib] [] none
              (envImportPass [twoImportsLib]).importMap).1.imports ∧
      (makeEnvModuleWith [twoImportsLib] [] none
            (envImportPass [twoImportsLib]).importMap).1.functions =
          (makeEnvModuleWith [twoImportsLib] [] none
              (envImportPass [twoImportsLib]).importMap).1.functions ∧
      (makeEnvModuleWith [twoImportsLib] [] none
            (envImportPass [twoImportsLib]).importMap).1.code =
          (makeEnvModuleWith [twoImportsLib] [] none
              (envImportPass [twoImportsLib]).importMap).1.code ∧
      (makeEnvModuleWith [twoImportsLib] [] none
            (envImportPass [twoImportsLib]).importMap).1.globals =
          (makeEnvModuleWith [twoImportsLib] [] none
              (envImportPass [twoImportsLib]).importMap).1.globals ∧
      (makeEnvModuleWith [twoImportsLib] [] none
            (envImportPass [twoImportsLib]).importMap).1.tableMinimum =
          (makeEnvModuleWith [twoImportsLib] [] none
              (envImportPass [twoImportsLib]).importMap).1.tableMinimum ∧
      (makeEnvModuleWith [twoImportsLib] [] none
            (envImportPass [twoImportsLib]).importMap).1.memoryMinimum =
          (makeEnvModuleWith [twoImportsLib] [] none
              (envImportPass [twoImportsLib]).importMap).1.memoryMinimum ∧
      (makeEnvModuleWith [twoImportsLib] [] none
            (envImportPass [twoImportsLib]).importMap).2 =
          (makeEnvModuleWith [twoImportsLib] [] none
              (envImportPass [twoImportsLib]).importMap).2 ∧
      (∃ pre post l1 l2,
        (makeEnvModuleWith [twoImportsLib] [] none
              (envImportPass [twoImportsLib]).importMap).1.exports = pre ++ l1 ++ post ∧
          (makeEnvModuleWith [twoImportsLib] [] none
                (envImportPass [twoImportsLib]).importMap).1.exports = pre ++ l2 ++ post ∧
            l1.Perm l2) ∧
      (∀ i, (c4DepsB i).Perm (c4DepsA i)) ∧
      topoSort 3 c4DepsA ≠ topoSort 3 c4DepsB ∧
      (envFunctionExports c4CycleMeta c4CycleResolved (topoSort 3 c4DepsA)).isOk = true ∧
      (envFunctionExports c4CycleMeta c4CycleResolved (topoSort 3 c4DepsB)).isOk = true ∧
      exceptD (envFunctionExports c4CycleMeta c4CycleResolved (topoSort 3 c4DepsA)) [] ≠
        exceptD (envFunctionExports c4CycleMeta c4CycleResolved (topoSort 3 c4DepsB)) [] ∧
      (makeEnvModule c4CycleMeta
          (exceptD (envFunctionExports c4CycleMeta c4CycleResolved (topoSort 3 c4DepsA)) [])
          none).1 ≠
        (makeEnvModule c4CycleMeta
            (exceptD (envFunctionExports c4CycleMeta c4CycleResolved (topoSort 3 c4DepsB)) [])
            none).1 :=
  c4_amended [twoImportsLib] [] none _ _ (List.Perm.refl _) (List.Perm.refl _)

/-! ### C5: the heap globals of the env module -/

/-- The memory offset after the last library's region in `make_env_module`
(stack, dlopen buffer, then the aligned library regions). -/
def envMemAfter (metadata : List Metadata) : Nat :=
  (envLayout metadata
      (STACK_SIZE_BYTES + (DlOpenables.new 0 STACK_SIZE_BYTES metadata).buffer.length)
      (0 + (DlOpenables.new 0 STACK_SIZE_BYTES metadata).functionCount)).2.1

/-- The heap globals close the env module's ordered globals list. -/
theorem envGlobalsList_heap (metadata : List Metadata)
    (fexp : List (String × FunctionType × Nat)) (layouts : List LibLayout)
    (memAfter tabAfter : Nat) :
    ∃ F, envGlobalsList metadata fexp layouts memAfter tabAfter =
      F ++ [("__heap_base", (⟨.i32, true⟩ : GlobalType), align memAfter HEAP_ALIGNMENT_BYTES),
            ("__heap_end", (⟨.i32, true⟩ : GlobalType),
              align (align memAfter HEAP_ALIGNMENT_BYTES) PAGE_SIZE_BYTES)] :=
  ⟨("__stack_pointer", (⟨.i32, true⟩ : GlobalType), STACK_SIZE_BYTES) ::
      (layouts.flatMap libGlobals ++ tableAddrGlobals metadata fexp tabAfter),
    by simp [envGlobalsList]⟩

/-- C5 (amended): `__heap_base` and `__heap_end` are exported as MUTABLE
(not immutable) `i32` globals; `__heap_base` is the post-layout memory
offset aligned to `HEAP_ALIGNMENT` (16), `__heap_end` is `__heap_base`
aligned up to `PAGE_SIZE` (65536), the memory section's minimum is
`__heap_end / PAGE_SIZE`, and the two alignment identities hold. -/
theorem c5_amended (metadata : List Metadata)
    (fexp : List (String × FunctionType × Nat)) (cabi : Option String)
    (passOrder : List (Import × Nat)) :
    ∃ i j,
      (⟨"__heap_base", .global, i⟩ : ExportEntry) ∈
          (makeEnvModuleWith metadata fexp cabi passOrder).1.exports ∧
        (makeEnvModuleWith metadata fexp cabi passOrder).1.globals[i]? =
          some (⟨.i32, true⟩, align (envMemAfter metadata) HEAP_ALIGNMENT_BYTES) ∧
        (⟨"__heap_end", .global, j⟩ : ExportEntry) ∈
          (makeEnvModuleWith metadata fexp cabi passOrder).1.exports ∧
        (makeEnvModuleWith metadata fexp cabi passOrder).1.globals[j]? =
          some (⟨.i32, true⟩,
            align (align (envMemAfter metadata) HEAP_ALIGNMENT_BYTES) PAGE_SIZE_BYTES) ∧
        (makeEnvModuleWith metadata fexp cabi passOrder).1.memoryMinimum =
          align (align (envMemAfter metadata) HEAP_ALIGNMENT_BYTES) PAGE_SIZE_BYTES /
            PAGE_SIZE_BYTES ∧
        align (envMemAfter metadata) HEAP_ALIGNMENT_BYTES % HEAP_ALIGNMENT_BYTES = 0 ∧
        align (align (envMemAfter metadata) HEAP_ALIGNMENT_BYTES) PAGE_SIZE_BYTES %
            PAGE_SIZE_BYTES = 0 := by
  obtain ⟨F, hF⟩ :=
    envGlobalsList_heap metadata fexp
      (envLayout metadata
          (STACK_SIZE_BYTES + (DlOpenables.new 0 STACK_SIZE_BYTES metadata).buffer.length)
          (0 + (DlOpenables.new 0 STACK_SIZE_BYTES metadata).functionCount)).1
      (envMemAfter metadata)
      (envLayout metadata
          (STACK_SIZE_BYTES + (DlOpenables.new 0 STACK_SIZE_BYTES metadata).buffer.length)
          (0 + (DlOpenables.new 0 STACK_SIZE_BYTES metadata).functionCount)).2.2
  refine ⟨F.length, F.length + 1, ?_, ?_, ?_, ?_, rfl, align_mod _ _, align_mod _ _⟩
  · simp only [makeEnvModuleWith, envMemAfter] at hF ⊢
    rw [hF, enumFrom_append]
    simp [enumFrom]
  · simp only [makeEnvModuleWith, envMemAfter] at hF ⊢
    rw [hF]
    rw [List.map_append,
      List.getElem?_append_right (by simp : (F.map (fun g => (g.2.1, g.2.2))).length ≤ F.length)]
    simp
  · simp only [makeEnvModuleWith, envMemAfter] at hF ⊢
    rw [hF, enumFrom_append]
    simp [enumFrom]
  · simp only [makeEnvModuleWith, envMemAfter] at hF ⊢
    rw [hF]
    rw [List.map_append,
      List.getElem?_append_right
        (by simp : (F.map (fun g => (g.2.1, g.2.2))).length ≤ F.length + 1)]
    simp

/-- C5 counterexample: already on the empty input, the env module's
`__heap_base` and `__heap_end` exported globals are MUTABLE - the claim
states they are immutable. -/
theorem c5_counterexample :
    envGlobalMutability (makeEnvModule [] [] none).1 "__heap_base" = some true ∧
      envGlobalMutability (makeEnvModule [] [] none).1 "__heap_end" = some true :=
  ⟨rfl, rfl⟩

/-! ### C8: alignment and disjointness of the assigned bases -/

/-- Every base the layout loop assigns is at least the running offset it
started from. -/
theorem envLayout_base_ge (mds : List Metadata) (m t : Nat) :
    ∀ l ∈ (envLayout mds m t).1, m ≤ l.memoryBase ∧ t ≤ l.tableBase := by
  induction mds generalizing m t with
  | nil => intro l hl; simp [envLayout] at hl
  | cons md rest ih =>
      intro l hl
      simp only [envLayout, List.mem_cons] at hl
      rcases hl with rfl | hl
      · exact ⟨le_align _ _ (Nat.two_pow_pos _), le_align _ _ (Nat.two_pow_pos _)⟩
      · have h := ih _ _ l hl
        constructor
        · exact le_trans (le_align m _ (Nat.two_pow_pos _)) (le_trans (Nat.le_add_right _ _) h.1)
        · exact le_trans (le_align t _ (Nat.two_pow_pos _)) (le_trans (Nat.le_add_right _ _) h.2)

/-- The assigned regions are consecutive: each library's region (memory and
table) ends before every later library's begins. -/
theorem envLayout_ordered (mds : List Metadata) (m t : Nat) :
    List.Pairwise
      (fun a b =>
        a.memoryBase + a.memInfo.memory_size ≤ b.memoryBase ∧
          a.tableBase + a.memInfo.table_size ≤ b.tableBase)
      (envLayout mds m t).1 := by
  induction mds generalizing m t with
  | nil => simp [envLayout]
  | cons md rest ih =>
      simp only [envLayout]
      refine List.Pairwise.cons ?_ (ih _ _)
      intro b hb
      exact envLayout_base_ge rest _ _ b hb

/-- Every assigned base is aligned as its library requests. -/
theorem envLayout_alignment (mds : List Metadata) (m t : Nat) :
    ∀ l ∈ (envLayout mds m t).1,
      l.memoryBase % 2 ^ l.memInfo.memory_alignment = 0 ∧
        l.tableBase % 2 ^ l.memInfo.table_alignment = 0 := by
  induction mds generalizing m t with
  | nil => intro l hl; simp [envLayout] at hl
  | cons md rest ih =>
      intro l hl
      simp only [envLayout, List.mem_cons] at hl
      rcases hl with rfl | hl
      · exact ⟨align_mod _ _, align_mod _ _⟩
      · exact ih _ _ l hl

/-- C8: for any starting offsets, any two distinct libraries of the layout
have pairwise disjoint memory intervals and pairwise disjoint table
intervals, and each library's bases are multiples of its requested
alignments. -/
theorem c8_layout (metadata : List Metadata) (m t i j x : Nat) (li lj : LibLayout)
    (hij : i ≠ j)
    (hi : (envLayout metadata m t).1[i]? = some li)
    (hj : (envLayout metadata m t).1[j]? = some lj) :
    li.memoryBase % 2 ^ li.memInfo.memory_alignment = 0 ∧
      li.tableBase % 2 ^ li.memInfo.table_alignment = 0 ∧
      ¬(li.memoryBase ≤ x ∧ x < li.memoryBase + li.memInfo.memory_size ∧
          lj.memoryBase ≤ x ∧ x < lj.memoryBase + lj.memInfo.memory_size) ∧
      ¬(li.tableBase ≤ x ∧ x < li.tableBase + li.memInfo.table_size ∧
          lj.tableBase ≤ x ∧ x < lj.tableBase + lj.memInfo.table_size) := by
  have hmemi : li ∈ (envLayout metadata m t).1 := List.getElem?_mem hi
  have halign := envLayout_alignment metadata m t li hmemi
  have hpw := envLayout_ordered metadata m t
  rw [List.pairwise_iff_get] at hpw
  have hilt : i < (envLayout metadata m t).1.length := by
    by_contra hc
    rw [List.getElem?_eq_none (by omega)] at hi
    exact Option.noConfusion hi
  have hjlt : j < (envLayout metadata m t).1.length := by
    by_contra hc
    rw [List.getElem?_eq_none (by omega)] at hj
    exact Option.noConfusion hj
  have hgi : (envLayout metadata m t).1.get ⟨i, hilt⟩ = li := by
    have := List.getElem?_eq_getElem hilt
    rw [hi] at this
    exact (Option.some_inj.mp this.symm)
  have hgj : (envLayout metadata m t).1.get ⟨j, hjlt⟩ = lj := by
    have := List.getElem?_eq_getElem hjlt
    rw [hj] at this
    exact (Option.some_inj.mp this.symm)
  refine ⟨halign.1, halign.2, ?_, ?_⟩
  · rintro ⟨h1, h2, h3, h4⟩
    rcases Nat.lt_or_ge i j with hlt | hge
    · have := hpw ⟨i, hilt⟩ ⟨j, hjlt⟩ hlt
      rw [hgi, hgj] at this
      omega
    · have hlt : j < i := by omega
      have := hpw ⟨j, hjlt⟩ ⟨i, hilt⟩ hlt
      rw [hgi, hgj] at this
      omega
  · rintro ⟨h1, h2, h3, h4⟩
    rcases Nat.lt_or_ge i j with hlt | hge
    · have := hpw ⟨i, hilt⟩ ⟨j, hjlt⟩ hlt
      rw [hgi, hgj] at this
      omega
    · have hlt : j < i := by omega
      have := hpw ⟨j, hjlt⟩ ⟨i, hilt⟩ hlt
      rw [hgi, hgj] at this
      omega

/-- A two-library input for the C8 witness. -/
def c8LibOne : Metadata := { emptyMetadata with name := "one", mem_info := ⟨10, 2, 3, 1⟩ }

/-- A second library for the C8 witness. -/
def c8LibTwo : Metadata := { emptyMetadata with name := "two", mem_info := ⟨5, 3, 2, 2⟩ }

/-- Witness for C8 at a concrete two-library layout. -/
theorem c8_layout_witness :
    (⟨"one", 0, 0, ⟨10, 2, 3, 1⟩, []⟩ : LibLayout).memoryBase % 2 ^ 2 = 0 ∧
      (⟨"one", 0, 0, ⟨10, 2, 3, 1⟩, []⟩ : LibLayout).tableBase % 2 ^ 1 = 0 ∧
      ¬((⟨"one", 0, 0, ⟨10, 2, 3, 1⟩, []⟩ : LibLayout).memoryBase ≤ 5 ∧
          5 < (⟨"one", 0, 0, ⟨10, 2, 3, 1⟩, []⟩ : LibLayout).memoryBase + 10 ∧
          (⟨"two", 16, 4, ⟨5, 3, 2, 2⟩, []⟩ : LibLayout).memoryBase ≤ 5 ∧
          5 < (⟨"two", 16, 4, ⟨5, 3, 2, 2⟩, []⟩ : LibLayout).memoryBase + 5) ∧
      ¬((⟨"one", 0, 0, ⟨10, 2, 3, 1⟩, []⟩ : LibLayout).tableBase ≤ 5 ∧
          5 < (⟨"one", 0, 0, ⟨10, 2, 3, 1⟩, []⟩ : LibLayout).tableBase + 3 ∧
          (⟨"two", 16, 4, ⟨5, 3, 2, 2⟩, []⟩ : LibLayout).tableBase ≤ 5 ∧
          5 < (⟨"two", 16, 4, ⟨5, 3, 2, 2⟩, []⟩ : LibLayout).tableBase + 2) := by
  have h := c8_layout [c8LibOne, c8LibTwo] 0 0 0 1 5
    ⟨"one", 0, 0, ⟨10, 2, 3, 1⟩, []⟩ ⟨"two", 16, 4, ⟨5, 3, 2, 2⟩, []⟩
    (by decide) (by rfl) (by rfl)
  exact h

/-! ### C3: duplicate names -/

/-- First of two reachable libraries sharing the name `x`. -/
def dupNameLibOne : Metadata := { emptyMetadata with name := "x", has_component_exports := true }

/-- Second of two reachable libraries sharing the name `x`. -/
def dupNameLibTwo : Metadata := { emptyMetadata with name := "x", has_component_exports := true }

/-- A linker input whose two reachable libraries were added under the same
name. -/
def dupNameLinker : Linker := ⟨[dupNameLibOne, dupNameLibTwo], [], false, false⟩

/-- A component-exporting root library. -/
def dupPruneMain : Metadata :=
  { emptyMetadata with name := "main", has_component_exports := true }

/-- First of two UNREACHABLE libraries sharing the name `x` (no component
exports, not dl-openable, and nothing depends on them). -/
def dupPruneLibOne : Metadata := { emptyMetadata with name := "x" }

/-- Second of two unreachable libraries sharing the name `x`. -/
def dupPruneLibTwo : Metadata := { emptyMetadata with name := "x" }

/-- A linker input with two libraries added under the same name, both of
them unreachable. -/
def dupPruneLinker : Linker := ⟨[dupPruneMain, dupPruneLibOne, dupPruneLibTwo], [], false, false⟩

/-- C3 counterexample: an input list containing two libraries added under
the same name on which `encode` nonetheless SUCCEEDS - `Linker::encode`
never checks library names; here the duplicate-named libraries are
unreachable, so the pruning pass silently drops both and the retry encodes
a component. -/
theorem c3_counterexample :
    ¬ (dupPruneLinker.libraries.map (fun md => md.name)).Nodup ∧
      (dupPruneLinker.encode).isOk = true :=
  ⟨by decide, by rfl⟩

/-- C3 (amended): duplicate ADAPTER names make `encode` return an error;
duplicate LIBRARY names are never checked.  Duplicate-named unreachable
libraries are pruned and encoding can succeed (see the counterexample);
duplicate-named libraries that survive to env-module synthesis duplicate
the `x:memory_base`/`x:table_base` export names, so the `wasmparser`
validation of the synthesized module fails and its `unwrap` panics - a
crash, not a returned error. -/
theorem c3_amended (st : Linker) (fuel : Nat) (h : ¬ st.adapters.Nodup) :
    encodeFuel (fuel + 1) st = .error .duplicateAdapterName ∧
      dupNameLinker.encode = .error (.internalPanic "validate") := by
  refine ⟨?_, by rfl⟩
  simp only [encodeFuel]
  rw [if_pos h]

/-- Witness for C3 (amended) with a duplicated adapter name. -/
theorem c3_amended_witness :
    encodeFuel 1 ⟨[], ["a", "a"], false, false⟩ = .error .duplicateAdapterName ∧
      dupNameLinker.encode = .error (.internalPanic "validate") :=
  c3_amended ⟨[], ["a", "a"], false, false⟩ 0 (by decide)

/-! ### C6: stub-and-retry for missing symbols -/

/-- The function signature carried by a function `Ty` (the empty signature
for a global; unused under the all-functions side conditions). -/
def Ty.functionTypeD : Ty → FunctionType
  | .function ty => ty
  | .global _ => ⟨[], []⟩

theorem mem_of_enumFrom (n : Nat) (l : List α) (p : Nat × α) (h : p ∈ enumFrom n l) :
    p.2 ∈ l := by
  induction l generalizing n with
  | nil => simp [enumFrom] at h
  | cons a l ih =>
      simp only [enumFrom, List.mem_cons] at h
      rcases h with rfl | h
      · exact List.mem_cons_self _ _
      · exact List.mem_cons_of_mem _ (ih (n + 1) h)

/-- Shape of the stub-module fold when every processed entry is a function:
each section is the base section extended entrywise. -/
theorem stubsFold_shape (l : List (Nat × String × Export)) (m : StubModule)
    (h : ∀ p ∈ l, p.2.2.key.ty.isFunction = true) :
    (l.foldl stubStep m).exports = m.exports ++ l.map (fun p => (p.2.2.key.name, p.1)) ∧
      (l.foldl stubStep m).code = m.code ++ l.map (fun _ => [Ins.unreachable, Ins.end']) ∧
      (l.foldl stubStep m).functions = m.functions ++ l.map (fun p => p.1) ∧
      (l.foldl stubStep m).types = m.types ++ l.map (fun p => p.2.2.key.ty.functionTypeD) := by
  induction l generalizing m with
  | nil => simp
  | cons a l ih =>
      have ha := h a (List.mem_cons_self a l)
      obtain ⟨ty, hty⟩ : ∃ ty, a.2.2.key.ty = .function ty := by
        cases hk : a.2.2.key.ty with
        | function ty => exact ⟨ty, rfl⟩
        | global g => rw [hk] at ha; simp [Ty.isFunction] at ha
      have hstep : stubStep m a =
          { types := m.types ++ [ty]
            functions := m.functions ++ [a.1]
            exports := m.exports ++ [(a.2.2.key.name, a.1)]
            code := m.code ++ [[Ins.unreachable, Ins.end']] } := by
        simp [stubStep, hty]
      obtain ⟨h1, h2, h3, h4⟩ :=
        ih
          { types := m.types ++ [ty]
            functions := m.functions ++ [a.1]
            exports := m.exports ++ [(a.2.2.key.name, a.1)]
            code := m.code ++ [[Ins.unreachable, Ins.end']] }
          (fun p hp => h p (List.mem_cons_of_mem a hp))
      simp only [List.foldl_cons, hstep]
      refine ⟨?_, ?_, ?_, ?_⟩ <;>
        simp [h1, h2, h3, h4, hty, Ty.functionTypeD]

/-- When no function export carries the name, the name-keyed exporter lookup
fails. -/
theorem functionExportersFind_none (exporters : List (ExportKey × List (String × Export)))
    (name : String)
    (h : ∀ k ∈ exporters, k.1.name = name → k.1.ty.isFunction = false) :
    functionExportersFind exporters name = none := by
  have hfil : exporters.filter (fun e => e.1.name == name && e.1.ty.isFunction) = [] := by
    rw [List.filter_eq_nil_iff]
    intro a ha
    by_cases hn : a.1.name = name
    · simp [hn, h a ha hn]
    · simp [hn]
  simp [functionExportersFind, hfil]

/-- A failing `GOT.func` lookup appends the missing entry with the empty
signature and flags 0. -/
theorem gotFuncStep_missing_push (exporters : List (ExportKey × List (String × Export)))
    (importerName : String) (st : ResolveState) (n : String)
    (h : functionExportersFind exporters n = none) :
    (gotFuncStep exporters importerName st n).missing =
      st.missing ++ [(importerName, ⟨⟨n, .function ⟨[], []⟩⟩, 0⟩)] := by
  simp [gotFuncStep, h]

/-- Every `GOT.func` step only appends to the missing list. -/
theorem gotFuncStep_missing_mono (exporters : List (ExportKey × List (String × Export)))
    (importerName : String) (st : ResolveState) (n : String) :
    ∃ t, (gotFuncStep exporters importerName st n).missing = st.missing ++ t := by
  unfold gotFuncStep
  cases h : functionExportersFind exporters n with
  | none => exact ⟨[(importerName, ⟨⟨n, .function ⟨[], []⟩⟩, 0⟩)], by simp⟩
  | some p =>
      cases hl : p.2 with
      | nil => exact ⟨[], by simp [hl]⟩
      | cons e rest =>
          cases rest with
          | nil => exact ⟨[], by simp [hl]⟩
          | cons e2 rest2 => exact ⟨[], by simp [hl]⟩

/-- A fold whose step only appends to the missing list only appends to the
missing list. -/
theorem foldl_missing_mono {α : Type} (step : ResolveState → α → ResolveState)
    (hstep : ∀ st a, ∃ t, (step st a).missing = st.missing ++ t) :
    ∀ (l : List α) (st : ResolveState), ∃ t, (l.foldl step st).missing = st.missing ++ t := by
  intro l
  induction l with
  | nil => intro st; exact ⟨[], by simp⟩
  | cons a l ih =>
      intro st
      obtain ⟨t1, h1⟩ := hstep st a
      obtain ⟨t2, h2⟩ := ih (step st a)
      exact ⟨t1 ++ t2, by rw [List.foldl_cons, h2, h1, List.append_assoc]⟩

/-- The sections of the stub module at the position of a missing entry. -/
theorem makeStubsModule_getElem (missing : List (String × Export))
    (h : ∀ p ∈ missing, p.2.key.ty.isFunction = true)
    (i : Nat) (imp name : String) (ty : FunctionType) (fl : Nat)
    (hi : missing[i]? = some (imp, ⟨⟨name, .function ty⟩, fl⟩)) :
    (makeStubsModule missing).exports[i]? = some (name, i) ∧
      (makeStubsModule missing).types[i]? = some ty ∧
      (makeStubsModule missing).code[i]? = some [Ins.unreachable, Ins.end'] := by
  have hlt : i < missing.length := by
    by_contra hc
    rw [List.getElem?_eq_none (by omega)] at hi
    exact Option.noConfusion hi
  obtain ⟨h1, h2, _, h4⟩ := stubsFold_shape (enumFrom 0 missing) ⟨[], [], [], []⟩
    (fun p hp => h p.2 (mem_of_enumFrom 0 _ p hp))
  simp only [makeStubsModule]
  rw [h1, h2, h4]
  refine ⟨?_, ?_, ?_⟩
  · simp [List.getElem?_map, enumFrom_getElem?, hi]
  · simp [List.getElem?_map, enumFrom_getElem?, hi, Ty.functionTypeD]
  · simp [List.getElem?_replicate, enumFrom_length, hlt]

/-- C10: a `GOT.func` import whose name matches no function export of any
library is recorded missing with the empty function signature and flags 0;
it is therefore reported as non-weak regardless of any original binding, and
a stub synthesized for the missing set exports it as a nullary function
returning nothing whose body is a single trap. -/
theorem c10_got_func_missing (metadata : List Metadata)
    (exporters : List (ExportKey × List (String × Export)))
    (md : Metadata) (name : String)
    (hmd : md ∈ metadata)
    (hname : name ∈ md.table_address_imports)
    (hnofn : ∀ k ∈ exporters, k.1.name = name → k.1.ty.isFunction = false) :
    (md.name, (⟨⟨name, .function ⟨[], []⟩⟩, 0⟩ : Export)) ∈
        (resolveSymbols metadata exporters).missing ∧
      (md.name, (⟨⟨name, .function ⟨[], []⟩⟩, 0⟩ : Export)) ∈
        nonWeakMissing (resolveSymbols metadata exporters).missing ∧
      ∀ (i : Nat) (imp : String),
        (∀ p ∈ (resolveSymbols metadata exporters).missing, p.2.key.ty.isFunction = true) →
          (resolveSymbols metadata exporters).missing[i]? =
              some ((imp, ⟨⟨name, .function ⟨[], []⟩⟩, 0⟩) : String × Export) →
            (makeStubsModule (resolveSymbols metadata exporters).missing).exports[i]? =
                some (name, i) ∧
              (makeStubsModule (resolveSymbols metadata exporters).missing).types[i]? =
                some (⟨[], []⟩ : FunctionType) ∧
              (makeStubsModule (resolveSymbols metadata exporters).missing).code[i]? =
                some [Ins.unreachable, Ins.end'] := by
  have hmem : (md.name, (⟨⟨name, .function ⟨[], []⟩⟩, 0⟩ : Export)) ∈
      (resolveSymbols metadata exporters).missing := by
    obtain ⟨s, t, rfl⟩ := List.append_of_mem hmd
    obtain ⟨u, v, huv⟩ := List.append_of_mem hname
    simp only [resolveSymbols]
    rw [List.foldl_append, List.foldl_cons]
    obtain ⟨t3, h3⟩ :=
      foldl_missing_mono (fun st md => gotFuncPass exporters st md)
        (fun st md =>
          foldl_missing_mono (gotFuncStep exporters md.name)
            (gotFuncStep_missing_mono exporters md.name) md.table_address_imports st)
        t _
    rw [h3]
    simp only [gotFuncPass, huv]
    rw [List.foldl_append, List.foldl_cons]
    obtain ⟨t4, h4⟩ :=
      foldl_missing_mono (gotFuncStep exporters md.name)
        (gotFuncStep_missing_mono exporters md.name) v _
    rw [h4,
      gotFuncStep_missing_push exporters md.name _ name
        (functionExportersFind_none exporters name hnofn)]
    simp
  refine ⟨hmem, ?_, ?_⟩
  · rw [nonWeakMissing, List.mem_filter]
    refine ⟨hmem, ?_⟩
    simp [WASM_SYM_BINDING_WEAK]
  · intro i imp hall hi
    exact makeStubsModule_getElem _ hall i imp name ⟨[], []⟩ 0 hi

/-- A library whose `GOT.func` import `gf` has no exporter anywhere. -/
def gotFuncLib : Metadata :=
  { emptyMetadata with name := "libG", table_address_imports := ["gf"] }

/-- Witness for C10 on a concrete library with an unmatched `GOT.func`
import. -/
theorem c10_got_func_missing_witness :
    ("libG", (⟨⟨"gf", .function ⟨[], []⟩⟩, 0⟩ : Export)) ∈
        (resolveSymbols [gotFuncLib] []).missing ∧
      ("libG", (⟨⟨"gf", .function ⟨[], []⟩⟩, 0⟩ : Export)) ∈
        nonWeakMissing (resolveSymbols [gotFuncLib] []).missing ∧
      ∀ (i : Nat) (imp : String),
        (∀ p ∈ (resolveSymbols [gotFuncLib] []).missing, p.2.key.ty.isFunction = true) →
          (resolveSymbols [gotFuncLib] []).missing[i]? =
              some ((imp, ⟨⟨"gf", .function ⟨[], []⟩⟩, 0⟩) : String × Export) →
            (makeStubsModule (resolveSymbols [gotFuncLib] []).missing).exports[i]? =
                some ("gf", i) ∧
              (makeStubsModule (resolveSymbols [gotFuncLib] []).missing).types[i]? =
                some (⟨[], []⟩ : FunctionType) ∧
              (makeStubsModule (resolveSymbols [gotFuncLib] []).missing).code[i]? =
                some [Ins.unreachable, Ins.end'] :=
  c10_got_func_missing [gotFuncLib] [] gotFuncLib "gf" (by decide) (by decide)
    (fun k hk => absurd hk (List.not_mem_nil k))

/-! ### C7: indirection planning over env imports -/

/-- Invariant tracked through the `env_function_exports` walk for one symbol
of interest: not yet marked exported, and no emitted entry carries it. -/
def EFEInv (name : String) (st : EFEState) : Prop :=
  name ∉ st.exported ∧ ∀ e ∈ st.result, e.1 ≠ name

theorem foldE_preserve {ε α β : Type} {P : β → Prop} (f : β → α → Except ε β) :
    ∀ (l : List α) (b b' : β), foldE f b l = .ok b' → P b →
      (∀ a ∈ l, ∀ s s', P s → f s a = .ok s' → P s') → P b' := by
  intro l
  induction l with
  | nil =>
      intro b b' h hP _
      simp only [foldE] at h
      rw [Except.ok.inj h] at hP
      exact hP
  | cons a l ih =>
      intro b b' h hP hstep
      simp only [foldE] at h
      cases hfa : f b a with
      | error e => rw [hfa] at h; exact absurd h (by simp)
      | ok b1 =>
          rw [hfa] at h
          exact ih b1 b' h (hstep a (List.mem_cons_self a l) b b1 hP hfa)
            (fun a' ha' => hstep a' (List.mem_cons_of_mem a ha'))

theorem foldE_append {ε α β : Type} (f : β → α → Except ε β) (l1 l2 : List α) (b : β) :
    foldE f b (l1 ++ l2) =
      match foldE f b l1 with
      | .error e => .error e
      | .ok b' => foldE f b' l2 := by
  induction l1 generalizing b with
  | nil => simp [foldE]
  | cons a l ih =>
      simp only [List.cons_append, foldE]
      cases f b a with
      | error e => rfl
      | ok b1 => exact ih b1

/-- Case analysis of a successful `GOT.func` step of the walk. -/
theorem efeTableStep_ok_shape (metadata : List Metadata)
    (resolved : List (ExportKey × String × Export)) (st st' : EFEState) (n : String)
    (h : efeTableStep metadata resolved st n = .ok st') :
    st'.seen = st.seen ∧
      (st' = st ∨ ∃ ty ex, st'.result = st.result ++ [(n, ty, ex)] ∧
        st'.exported = st.exported ++ [n]) := by
  unfold efeTableStep at h
  by_cases hex : n ∈ st.exported
  · rw [if_pos hex] at h
    rw [← Except.ok.inj h]
    exact ⟨rfl, Or.inl rfl⟩
  · rw [if_neg hex] at h
    cases hf : resolvedFunctionFind resolved n with
    | none => rw [hf] at h; exact absurd h (by simp)
    | some p =>
        obtain ⟨ty, ex⟩ := p
        rw [hf] at h
        rw [← Except.ok.inj h]
        exact ⟨rfl, Or.inr ⟨ty, libIndex metadata ex, rfl, rfl⟩⟩

/-- Case analysis of a successful `env`-import step of the walk. -/
theorem efeEnvStep_cases (metadata : List Metadata)
    (resolved : List (ExportKey × String × Export)) (st st' : EFEState)
    (q : String × FunctionType × Nat)
    (h : efeEnvStep metadata resolved st q = .ok st') :
    st'.seen = st.seen ∧
      ((q.1 ∈ st.exported ∧ st' = st) ∨
        ∃ ename ex, findFunctionExporter q.1 q.2.1 resolved = some (ename, ex) ∧
          q.1 ∉ st.exported ∧
          ((libIndex metadata ename ∈ st.seen ∧ st' = st) ∨
            (libIndex metadata ename ∉ st.seen ∧
              st'.result = st.result ++ [(q.1, q.2.1, libIndex metadata ename)] ∧
              st'.exported = st.exported ++ [q.1]))) := by
  unfold efeEnvStep at h
  by_cases hex : q.1 ∈ st.exported
  · rw [if_pos hex] at h
    rw [← Except.ok.inj h]
    exact ⟨rfl, Or.inl ⟨hex, rfl⟩⟩
  · rw [if_neg hex] at h
    cases hf : findFunctionExporter q.1 q.2.1 resolved with
    | none => rw [hf] at h; exact absurd h (by simp)
    | some p =>
        obtain ⟨ename, ex⟩ := p
        rw [hf] at h
        simp only at h
        by_cases hseen : libIndex metadata ename ∈ st.seen
        · rw [if_pos hseen] at h
          rw [← Except.ok.inj h]
          exact ⟨rfl, Or.inr ⟨ename, ex, rfl, hex, Or.inl ⟨hseen, rfl⟩⟩⟩
        · rw [if_neg hseen] at h
          rw [← Except.ok.inj h]
          exact ⟨rfl, Or.inr ⟨ename, ex, rfl, hex, Or.inr ⟨hseen, rfl, rfl⟩⟩⟩

/-- A `GOT.func` step whose symbol is not the tracked one preserves the
invariant and the seen set. -/
theorem efeTableStep_preserveInv (metadata : List Metadata)
    (resolved : List (ExportKey × String × Export)) (name : String) (V : List Nat)
    (st st' : EFEState) (n : String) (hn : n ≠ name)
    (h : efeTableStep metadata resolved st n = .ok st')
    (hi : EFEInv name st ∧ st.seen = V) : EFEInv name st' ∧ st'.seen = V := by
  obtain ⟨hseen, hcases⟩ := efeTableStep_ok_shape metadata resolved st st' n h
  refine ⟨?_, by rw [hseen]; exact hi.2⟩
  rcases hcases with rfl | ⟨ty, ex, hres, hexp⟩
  · exact hi.1
  · constructor
    · rw [hexp]
      intro hmem
      rcases List.mem_append.mp hmem with hmem | hmem
      · exact hi.1.1 hmem
      · rw [List.mem_singleton] at hmem
        exact hn hmem.symm
    · intro e he
      rw [hres] at he
      rcases List.mem_append.mp he with he | he
      · exact hi.1.2 e he
      · rw [List.mem_singleton] at he
        rw [he]
        exact hn

/-- An `env` step whose symbol is not the tracked one preserves the
invariant and the seen set. -/
theorem efeEnvStep_preserveInv_ne (metadata : List Metadata)
    (resolved : List (ExportKey × String × Export)) (name : String) (V : List Nat)
    (st st' : EFEState) (q : String × FunctionType × Nat) (hq : q.1 ≠ name)
    (h : efeEnvStep metadata resolved st q = .ok st')
    (hi : EFEInv name st ∧ st.seen = V) : EFEInv name st' ∧ st'.seen = V := by
  obtain ⟨hseen, hcases⟩ := efeEnvStep_cases metadata resolved st st' q h
  refine ⟨?_, by rw [hseen]; exact hi.2⟩
  rcases hcases with ⟨_, rfl⟩ | ⟨ename, ex, _, _, ⟨_, rfl⟩ | ⟨_, hres, hexp⟩⟩
  · exact hi.1
  · exact hi.1
  · constructor
    · rw [hexp]
      intro hmem
      rcases List.mem_append.mp hmem with hmem | hmem
      · exact hi.1.1 hmem
      · rw [List.mem_singleton] at hmem
        exact hq hmem.symm
    · intro e he
      rw [hres] at he
      rcases List.mem_append.mp he with he | he
      · exact hi.1.2 e he
      · rw [List.mem_singleton] at he
        rw [he]
        exact hq

/-- An `env` step preserves the invariant when the tracked symbol's only
occurrences equal the given triple and that triple's exporter is already in
the (fixed) seen set. -/
theorem efeEnvStep_preserveInv_skip (metadata : List Metadata)
    (resolved : List (ExportKey × String × Export)) (name : String)
    (ty : FunctionType) (fl : Nat) (ename : String) (ex : Export) (V : List Nat)
    (hexp : findFunctionExporter name ty resolved = some (ename, ex))
    (hie : libIndex metadata ename ∈ V)
    (st st' : EFEState) (q : String × FunctionType × Nat)
    (hq : q.1 = name → q = (name, ty, fl))
    (h : efeEnvStep metadata resolved st q = .ok st')
    (hi : EFEInv name st ∧ st.seen = V) : EFEInv name st' ∧ st'.seen = V := by
  by_cases hqn : q.1 = name
  · have hq' := hq hqn
    subst hq'
    obtain ⟨hseen, hcases⟩ := efeEnvStep_cases metadata resolved st st' (name, ty, fl) h
    refine ⟨?_, by rw [hseen]; exact hi.2⟩
    rcases hcases with ⟨_, rfl⟩ | ⟨ename', ex', hf', _, ⟨_, rfl⟩ | ⟨hnse, hres, hexp'⟩⟩
    · exact hi.1
    · exact hi.1
    · rw [hexp] at hf'
      have he' : ename' = ename := by
        have := Option.some.inj hf'
        exact (congrArg Prod.fst this).symm
      rw [he'] at hnse
      rw [hi.2] at hnse
      exact absurd hie hnse
  · exact efeEnvStep_preserveInv_ne metadata resolved name V st st' q hqn h hi

/-- Library-step invariant preservation when no import of the library
mentions the tracked symbol; the step appends the library to `seen`. -/
theorem efeStep_preserveInv (metadata : List Metadata)
    (resolved : List (ExportKey × String × Export)) (name : String)
    (st st' : EFEState) (j : Nat)
    (hTable : ∀ n ∈ (metadata.getD j emptyMetadata).table_address_imports, n ≠ name)
    (hEnv : ∀ q ∈ (metadata.getD j emptyMetadata).env_imports, q.1 ≠ name)
    (h : efeStep metadata resolved st j = .ok st')
    (hi : EFEInv name st) :
    EFEInv name st' ∧ st'.seen = st.seen ++ [j] := by
  simp only [efeStep] at h
  cases h1 : foldE (efeTableStep metadata resolved) st
      (metadata.getD j emptyMetadata).table_address_imports with
  | error e => rw [h1] at h; exact absurd h (by simp)
  | ok st1 =>
      rw [h1] at h
      dsimp only at h
      cases h2 : foldE (efeEnvStep metadata resolved) st1
          (metadata.getD j emptyMetadata).env_imports with
      | error e => rw [h2] at h; exact absurd h (by simp)
      | ok st2 =>
          rw [h2] at h
          dsimp only at h
          have p1 : EFEInv name st1 ∧ st1.seen = st.seen :=
            foldE_preserve (P := fun s => EFEInv name s ∧ s.seen = st.seen) _ _ _ _ h1
              ⟨hi, rfl⟩
              (fun a ha s s' hP hs =>
                efeTableStep_preserveInv metadata resolved name st.seen s s' a
                  (hTable a ha) hs hP)
          have p2 : EFEInv name st2 ∧ st2.seen = st.seen :=
            foldE_preserve (P := fun s => EFEInv name s ∧ s.seen = st.seen) _ _ _ _ h2 p1
              (fun a ha s s' hP hs =>
                efeEnvStep_preserveInv_ne metadata resolved name st.seen s s' a
                  (hEnv a ha) hs hP)
          rw [← Except.ok.inj h]
          exact ⟨⟨p2.1.1, p2.1.2⟩, by simp [p2.2]⟩

/-- A run over libraries none of which mentions the tracked symbol preserves
the invariant and appends exactly the processed indices to `seen`. -/
theorem efeRun_preserveInv (metadata : List Metadata)
    (resolved : List (ExportKey × String × Export)) (name : String) :
    ∀ (pre : List Nat) (st0 st1 : EFEState),
      (∀ j ∈ pre,
        (∀ n ∈ (metadata.getD j emptyMetadata).table_address_imports, n ≠ name) ∧
          (∀ q ∈ (metadata.getD j emptyMetadata).env_imports, q.1 ≠ name)) →
      foldE (efeStep metadata resolved) st0 pre = .ok st1 →
      EFEInv name st0 → EFEInv name st1 ∧ st1.seen = st0.seen ++ pre := by
  intro pre
  induction pre with
  | nil =>
      intro st0 st1 _ h hi
      simp only [foldE] at h
      rw [← Except.ok.inj h]
      exact ⟨hi, by simp⟩
  | cons j pre ih =>
      intro st0 st1 hc h hi
      simp only [foldE] at h
      cases hs : efeStep metadata resolved st0 j with
      | error e => rw [hs] at h; exact absurd h (by simp)
      | ok stm =>
          rw [hs] at h
          obtain ⟨hi1, hseen1⟩ :=
            efeStep_preserveInv metadata resolved name st0 stm j
              (hc j (List.mem_cons_self j pre)).1 (hc j (List.mem_cons_self j pre)).2 hs hi
          obtain ⟨hi2, hseen2⟩ :=
            ih stm st1 (fun j' hj' => hc j' (List.mem_cons_of_mem j hj')) h hi1
          exact ⟨hi2, by rw [hseen2, hseen1]; simp⟩

/-- A library that is not the import's owner mentions the tracked symbol in
none of its imports (given the side conditions of C7). -/
theorem mdAt_conditions (metadata : List Metadata) (name : String) (idx : Nat)
    (hNoTable : ∀ md' ∈ metadata, name ∉ md'.table_address_imports)
    (hOther : ∀ (j : Nat) (md' : Metadata), metadata[j]? = some md' → j ≠ idx →
      ∀ q ∈ md'.env_imports, q.1 ≠ name)
    (j : Nat) (hj : j ≠ idx) :
    (∀ n ∈ (metadata.getD j emptyMetadata).table_address_imports, n ≠ name) ∧
      (∀ q ∈ (metadata.getD j emptyMetadata).env_imports, q.1 ≠ name) := by
  cases hget : metadata[j]? with
  | none =>
      have hd : metadata.getD j emptyMetadata = emptyMetadata := by
        rw [List.getD_eq_getElem?_getD, hget]
        rfl
      rw [hd]
      exact ⟨by simp [emptyMetadata], by simp [emptyMetadata]⟩
  | some md' =>
      have hd : metadata.getD j emptyMetadata = md' := by
        rw [List.getD_eq_getElem?_getD, hget]
        rfl
      rw [hd]
      constructor
      · intro n hn heq
        rw [heq] at hn
        exact hNoTable md' (List.getElem?_mem hget) hn
      · exact hOther j md' hget hj

/-- Emitted entries are only ever appended by a library step. -/
theorem efeStep_result_mono (metadata : List Metadata)
    (resolved : List (ExportKey × String × Export)) (st st' : EFEState) (j : Nat)
    (x : String × FunctionType × Nat)
    (h : efeStep metadata resolved st j = .ok st') (hx : x ∈ st.result) :
    x ∈ st'.result := by
  simp only [efeStep] at h
  cases h1 : foldE (efeTableStep metadata resolved) st
      (metadata.getD j emptyMetadata).table_address_imports with
  | error e => rw [h1] at h; exact absurd h (by simp)
  | ok st1 =>
      rw [h1] at h
      dsimp only at h
      cases h2 : foldE (efeEnvStep metadata resolved) st1
          (metadata.getD j emptyMetadata).env_imports with
      | error e => rw [h2] at h; exact absurd h (by simp)
      | ok st2 =>
          rw [h2] at h
          dsimp only at h
          have p1 : x ∈ st1.result :=
            foldE_preserve (P := fun s => x ∈ s.result) _ _ _ _ h1 hx
              (fun a _ s s' hP hs => by
                obtain ⟨_, hsh⟩ := efeTableStep_ok_shape metadata resolved s s' a hs
                rcases hsh with rfl | ⟨ty, ex, hres, _⟩
                · exact hP
                · rw [hres]; exact List.mem_append_left _ hP)
          have p2 : x ∈ st2.result :=
            foldE_preserve (P := fun s => x ∈ s.result) _ _ _ _ h2 p1
              (fun a _ s s' hP hs => by
                obtain ⟨_, hsh⟩ := efeEnvStep_cases metadata resolved s s' a hs
                rcases hsh with ⟨_, rfl⟩ | ⟨en, ex, _, _, ⟨_, rfl⟩ | ⟨_, hres, _⟩⟩
                · exact hP
                · exact hP
                · rw [hres]; exact List.mem_append_left _ hP)
          rw [← Except.ok.inj h]
          exact p2

/-- Behaviour of the step that processes the import's owning library: if the
exporter is already seen the invariant is preserved (no entry emitted for
the symbol), and if it is not seen an entry for the symbol is emitted. -/
theorem efeStep_at_idx (metadata : List Metadata)
    (resolved : List (ExportKey × String × Export)) (name : String) (ty : FunctionType)
    (fl : Nat) (idx : Nat) (md : Metadata)
    (l1 l2 : List (String × FunctionType × Nat)) (ename : String) (ex : Export)
    (hmd : metadata[idx]? = some md)
    (heq : md.env_imports = l1 ++ (name, ty, fl) :: l2)
    (hl1 : ∀ q ∈ l1, q.1 ≠ name)
    (hl2 : ∀ q ∈ l2, q.1 = name → q = (name, ty, fl))
    (hTable : ∀ n ∈ md.table_address_imports, n ≠ name)
    (hexp : findFunctionExporter name ty resolved = some (ename, ex))
    (st st' : EFEState)
    (h : efeStep metadata resolved st idx = .ok st')
    (hi : EFEInv name st) :
    (libIndex metadata ename ∈ st.seen → EFEInv name st') ∧
      (libIndex metadata ename ∉ st.seen →
        (name, ty, libIndex metadata ename) ∈ st'.result) := by
  have hd : metadata.getD idx emptyMetadata = md := by
    rw [List.getD_eq_getElem?_getD, hmd]
    rfl
  simp only [efeStep, hd] at h
  cases h1 : foldE (efeTableStep metadata resolved) st md.table_address_imports with
  | error e => rw [h1] at h; exact absurd h (by simp)
  | ok st1 =>
      rw [h1] at h
      dsimp only at h
      cases h2 : foldE (efeEnvStep metadata resolved) st1 md.env_imports with
      | error e => rw [h2] at h; exact absurd h (by simp)
      | ok st2 =>
          rw [h2] at h
          dsimp only at h
          have p1 : EFEInv name st1 ∧ st1.seen = st.seen :=
            foldE_preserve (P := fun s => EFEInv name s ∧ s.seen = st.seen) _ _ _ _ h1
              ⟨hi, rfl⟩
              (fun a ha s s' hP hs =>
                efeTableStep_preserveInv metadata resolved name st.seen s s' a
                  (hTable a ha) hs hP)
          constructor
          · intro hie
            have hq_all : ∀ q ∈ md.env_imports, q.1 = name → q = (name, ty, fl) := by
              rw [heq]
              intro q hq
              rcases List.mem_append.mp hq with hq | hq
              · intro hqn; exact absurd hqn (hl1 q hq)
              · rcases List.mem_cons.mp hq with rfl | hq
                · intro _; rfl
                · exact hl2 q hq
            have p2 : EFEInv name st2 ∧ st2.seen = st.seen :=
              foldE_preserve (P := fun s => EFEInv name s ∧ s.seen = st.seen) _ _ _ _ h2 p1
                (fun a ha s s' hP hs =>
                  efeEnvStep_preserveInv_skip metadata resolved name ty fl ename ex st.seen
                    hexp hie s s' a (hq_all a ha) hs hP)
            rw [← Except.ok.inj h]
            exact ⟨p2.1.1, p2.1.2⟩
          · intro hie
            rw [heq, foldE_append] at h2
            cases hA : foldE (efeEnvStep metadata resolved) st1 l1 with
            | error e => rw [hA] at h2; exact absurd h2 (by simp)
            | ok stA =>
                rw [hA] at h2
                dsimp only at h2
                have pA : EFEInv name stA ∧ stA.seen = st.seen :=
                  foldE_preserve (P := fun s => EFEInv name s ∧ s.seen = st.seen) _ _ _ _ hA p1
                    (fun a ha s s' hP hs =>
                      efeEnvStep_preserveInv_ne metadata resolved name st.seen s s' a
                        (hl1 a ha) hs hP)
                simp only [foldE] at h2
                have hne : (name, ty, fl).1 ∉ stA.exported := pA.1.1
                have hns : libIndex metadata ename ∉ stA.seen := by
                  rw [pA.2]
                  exact hie
                have hstep : efeEnvStep metadata resolved stA (name, ty, fl) =
                    .ok { stA with
                      result := stA.result ++ [(name, ty, libIndex metadata ename)]
                      exported := stA.exported ++ [name] } := by
                  unfold efeEnvStep
                  rw [if_neg hne,
                    show findFunctionExporter (name, ty, fl).1 (name, ty, fl).2.1 resolved =
                      some (ename, ex) from hexp]
                  dsimp only
                  rw [if_neg hns]
                rw [hstep] at h2
                dsimp only at h2
                have hmem0 : (name, ty, libIndex metadata ename) ∈
                    (stA.result ++ [(name, ty, libIndex metadata ename)]) := by
                  simp
                have hmem2 : (name, ty, libIndex metadata ename) ∈ st2.result :=
                  foldE_preserve
                    (P := fun s => (name, ty, libIndex metadata ename) ∈ s.result) _ _ _ _ h2
                    hmem0
                    (fun a _ s s' hP hs => by
                      obtain ⟨_, hsh⟩ := efeEnvStep_cases metadata resolved s s' a hs
                      rcases hsh with ⟨_, rfl⟩ | ⟨en, ex2, _, _, ⟨_, rfl⟩ | ⟨_, hres, _⟩⟩
                      · exact hP
                      · exact hP
                      · rw [hres]; exact List.mem_append_left _ hP)
                rw [← Except.ok.inj h]
                exact hmem2

/-- C7 (amended): during indirection planning, an `env_imports` symbol whose
first occurrence sits in the library at position `p` of the topological
order produces an indirection entry if and only if its exporting library is
not among the libraries processed earlier (the prefix of the topological
order, which is exactly the `seen` set at that point); in particular a
symbol exported by an earlier library produces no entry, while a symbol
whose exporter is the importing library itself DOES produce an entry,
because the library is added to `seen` only after its own imports are
processed. -/
theorem c7_env_indirection (metadata : List Metadata)
    (resolved : List (ExportKey × String × Export)) (topo : List Nat) (p idx : Nat)
    (md : Metadata) (name : String) (ty : FunctionType) (fl : Nat)
    (l1 l2 : List (String × FunctionType × Nat)) (ename : String) (ex : Export)
    (result : List (String × FunctionType × Nat))
    (hrun : envFunctionExports metadata resolved topo = .ok result)
    (hNd : topo.Nodup)
    (hp : topo[p]? = some idx)
    (hmd : metadata[idx]? = some md)
    (heq : md.env_imports = l1 ++ (name, ty, fl) :: l2)
    (hl1 : ∀ q ∈ l1, q.1 ≠ name)
    (hl2 : ∀ q ∈ l2, q.1 = name → q = (name, ty, fl))
    (hNoTable : ∀ md' ∈ metadata, name ∉ md'.table_address_imports)
    (hOther : ∀ (j : Nat) (md' : Metadata), metadata[j]? = some md' → j ≠ idx →
      ∀ q ∈ md'.env_imports, q.1 ≠ name)
    (hexp : findFunctionExporter name ty resolved = some (ename, ex)) :
    (∃ ty' k, (name, ty', k) ∈ result) ↔ libIndex metadata ename ∉ topo.take p := by
  have hplen : p < topo.length := by
    by_contra hc
    rw [List.getElem?_eq_none (by omega)] at hp
    exact Option.noConfusion hp
  have hget : topo[p] = idx := by
    have h0 := List.getElem?_eq_getElem hplen
    rw [hp] at h0
    exact (Option.some.inj h0).symm
  have hdec : topo.take p ++ idx :: topo.drop (p + 1) = topo := by
    conv_rhs => rw [← List.take_append_drop p topo]
    congr 1
    rw [List.drop_eq_getElem_cons hplen, hget]
  have hNd' : (topo.take p ++ idx :: topo.drop (p + 1)).Nodup := by
    rw [hdec]
    exact hNd
  rw [List.nodup_append] at hNd'
  have hidx_pre : idx ∉ topo.take p := fun hmem =>
    hNd'.2.2 hmem (List.mem_cons_self idx _)
  have hidx_suf : idx ∉ topo.drop (p + 1) := (List.nodup_cons.mp hNd'.2.1).1
  simp only [envFunctionExports] at hrun
  cases hfold : foldE (efeStep metadata resolved) ⟨[], [], []⟩ topo with
  | error e => rw [hfold] at hrun; exact absurd hrun (by simp)
  | ok stF =>
      rw [hfold] at hrun
      dsimp only at hrun
      have hres : result = stF.result := (Except.ok.inj hrun).symm
      rw [← hdec, foldE_append] at hfold
      cases hpre : foldE (efeStep metadata resolved) ⟨[], [], []⟩ (topo.take p) with
      | error e => rw [hpre] at hfold; exact absurd hfold (by simp)
      | ok s1 =>
          rw [hpre] at hfold
          dsimp only at hfold
          simp only [foldE] at hfold
          cases hstep : efeStep metadata resolved s1 idx with
          | error e => rw [hstep] at hfold; exact absurd hfold (by simp)
          | ok s2 =>
              rw [hstep] at hfold
              obtain ⟨hi1, hseen1⟩ :=
                efeRun_preserveInv metadata resolved name (topo.take p) ⟨[], [], []⟩ s1
                  (fun j hj =>
                    mdAt_conditions metadata name idx hNoTable hOther j
                      (fun hji => hidx_pre (hji ▸ hj)))
                  hpre
                  ⟨List.not_mem_nil name, fun e he => absurd he (List.not_mem_nil e)⟩
              have hseen1' : s1.seen = topo.take p := by simpa using hseen1
              obtain ⟨hskip, hpush⟩ :=
                efeStep_at_idx metadata resolved name ty fl idx md l1 l2 ename ex hmd heq
                  hl1 hl2
                  (fun n hn hne => hNoTable md (List.getElem?_mem hmd) (hne ▸ hn))
                  hexp s1 s2 hstep hi1
              constructor
              · rintro ⟨ty', k, hk⟩
                by_contra hie
                have hi2 : EFEInv name s2 := hskip (by rw [hseen1']; exact hie)
                obtain ⟨hiF, _⟩ :=
                  efeRun_preserveInv metadata resolved name (topo.drop (p + 1)) s2 stF
                    (fun j hj =>
                      mdAt_conditions metadata name idx hNoTable hOther j
                        (fun hji => hidx_suf (hji ▸ hj)))
                    hfold hi2
                exact (hiF.2 _ (hres ▸ hk)) rfl
              · intro hie
                have hmem2 := hpush (by rw [hseen1']; exact hie)
                have hmemF : (name, ty, libIndex metadata ename) ∈ stF.result :=
                  foldE_preserve
                    (P := fun s => (name, ty, libIndex metadata ename) ∈ s.result) _ _ _ _
                    hfold hmem2
                    (fun a _ s s' hP hs =>
                      efeStep_result_mono metadata resolved s s' a _ hs hP)
                exact ⟨ty, libIndex metadata ename, hres ▸ hmemF⟩

/-- A library whose `env` import is a symbol it exports itself. -/
def selfImportLib : Metadata :=
  { emptyMetadata with
    name := "selfy"
    exports := [⟨⟨"f", .function ⟨[.i32], [.i32]⟩⟩, 0⟩]
    env_imports := [("f", ⟨[.i32], [.i32]⟩, 0)]
    has_component_exports := true }

/-- The resolved map for the self-import library. -/
def selfImportResolved : List (ExportKey × String × Export) :=
  [(⟨"f", .function ⟨[.i32], [.i32]⟩⟩,
    ("selfy", ⟨⟨"f", .function ⟨[.i32], [.i32]⟩⟩, 0⟩))]

/-- C7 counterexample: a symbol whose exporter is the importing library
itself DOES produce an indirection entry (the importing library is added to
`seen` only after its imports are processed), contradicting the claim's
"a symbol whose exporter is the importing library itself produces no
entry". -/
theorem c7_counterexample :
    envFunctionExports [selfImportLib] selfImportResolved [0] =
        .ok [("f", ⟨[.i32], [.i32]⟩, 0)] ∧
      ("f", (⟨[.i32], [.i32]⟩ : FunctionType), 0) ∈
        [("f", (⟨[.i32], [.i32]⟩ : FunctionType), 0)] :=
  ⟨rfl, List.mem_singleton.mpr rfl⟩

/-- Exporter library for the C7 witness. -/
def c7WitLibA : Metadata :=
  { emptyMetadata with
    name := "A"
    exports := [⟨⟨"f", .function ⟨[], []⟩⟩, 0⟩]
    has_component_exports := true }

/-- Importer library for the C7 witness. -/
def c7WitLibB : Metadata :=
  { emptyMetadata with
    name := "B"
    env_imports := [("f", ⟨[], []⟩, 0)]
    has_component_exports := true }

/-- Resolved map for the C7 witness. -/
def c7WitResolved : List (ExportKey × String × Export) :=
  [(⟨"f", .function ⟨[], []⟩⟩, ("A", ⟨⟨"f", .function ⟨[], []⟩⟩, 0⟩))]

/-- Witness for C7 on a backward reference: the exporter was processed
earlier, so no indirection entry is emitted. -/
theorem c7_env_indirection_witness :
    (∃ (ty' : FunctionType) (k : Nat),
        ("f", ty', k) ∈ ([] : List (String × FunctionType × Nat))) ↔
      libIndex [c7WitLibA, c7WitLibB] "A" ∉ ([0, 1] : List Nat).take 1 :=
  c7_env_indirection [c7WitLibA, c7WitLibB] c7WitResolved [0, 1] 1 1 c7WitLibB "f"
    ⟨[], []⟩ 0 [] [] "A" ⟨⟨"f", .function ⟨[], []⟩⟩, 0⟩ []
    (by rfl) (by decide) (by rfl) (by rfl) (by rfl)
    (fun q hq => absurd hq (List.not_mem_nil q))
    (fun q hq => absurd hq (List.not_mem_nil q))
    (by decide)
    (by
      intro j md' hget hj q hq
      rcases j with _ | _ | j
      · have hmd' : md' = c7WitLibA := by
          have h0 : (([c7WitLibA, c7WitLibB] : List Metadata)[0]?) = some c7WitLibA := rfl
          rw [h0] at hget
          exact (Option.some.inj hget).symm
        rw [hmd'] at hq
        simp [c7WitLibA, emptyMetadata] at hq
      · exact absurd rfl hj
      · exact absurd hget (by simp))
    (by rfl)

/-! ### C9: the cycle-tolerant topological sort -/

/-- One list is an extension of another (the `IndexSet` only ever appends). -/
def Extends (l l' : List Nat) : Prop := ∃ t, l' = l ++ t

theorem Extends.rfl' (l : List Nat) : Extends l l := ⟨[], by simp⟩

theorem Extends.trans' {a b c : List Nat} (h1 : Extends a b) (h2 : Extends b c) :
    Extends a c := by
  obtain ⟨t1, rfl⟩ := h1
  obtain ⟨t2, rfl⟩ := h2
  exact ⟨t1 ++ t2, by simp⟩

theorem Extends.mem' {a b : List Nat} {x : Nat} (hx : x ∈ a) (h : Extends a b) : x ∈ b := by
  obtain ⟨t, rfl⟩ := h
  exact List.mem_append_left t hx

/-- `v` occurs strictly before `u` in the list. -/
def Before (l : List Nat) (v u : Nat) : Prop := ∃ l1 l2, l = l1 ++ u :: l2 ∧ v ∈ l1

theorem Before.extends {l l' : List Nat} {v u : Nat} (h : Before l v u)
    (he : Extends l l') : Before l' v u := by
  obtain ⟨l1, l2, rfl, hv⟩ := h
  obtain ⟨t, rfl⟩ := he
  exact ⟨l1, l2 ++ t, by simp, hv⟩

/-- Every member's non-cycle dependencies appear strictly before it. -/
def Good (deps : Nat → List Nat) (l : List Nat) : Prop :=
  ∀ u ∈ l, ∀ v ∈ deps u, u ∉ deps v → Before l v u

/-- Invariant of the `topo_add` recursion: entries in range, no duplicates,
non-cycle dependencies placed first. -/
def TopoInv (count : Nat) (deps : Nat → List Nat) (l : List Nat) : Prop :=
  (∀ x ∈ l, x < count) ∧ l.Nodup ∧ Good deps l

/-- Termination measure of `topo_add` on a transitively closed graph. -/
def topoMeasure (count : Nat) (deps : Nat → List Nat) (s : List Nat) (e : Nat) : Nat :=
  ((Finset.range count).filter (fun x => x ∉ s)).card * (count + 2) +
    (insert e (deps e).toFinset).card

theorem unsortedCard_le (count : Nat) (s : List Nat) :
    ((Finset.range count).filter (fun x => x ∉ s)).card ≤ count := by
  calc ((Finset.range count).filter (fun x => x ∉ s)).card
      ≤ (Finset.range count).card := Finset.card_filter_le _ _
    _ = count := Finset.card_range count

theorem unsortedCard_mono (count : Nat) {s s' : List Nat} (h : Extends s s') :
    ((Finset.range count).filter (fun x => x ∉ s')).card ≤
      ((Finset.range count).filter (fun x => x ∉ s)).card := by
  apply Finset.card_le_card
  intro x hx
  rw [Finset.mem_filter] at hx ⊢
  refine ⟨hx.1, fun hmem => hx.2 (h.mem' hmem)⟩

theorem unsortedCard_strict (count : Nat) {s s' : List Nat} {e : Nat}
    (h : Extends s s') (he : e < count) (hn : e ∉ s) (hm : e ∈ s') :
    ((Finset.range count).filter (fun x => x ∉ s')).card <
      ((Finset.range count).filter (fun x => x ∉ s)).card := by
  apply Finset.card_lt_card
  rw [Finset.ssubset_iff_of_subset]
  · exact ⟨e, by simp [Finset.mem_filter, he, hn], by simp [Finset.mem_filter, hm]⟩
  · intro x hx
    rw [Finset.mem_filter] at hx ⊢
    exact ⟨hx.1, fun hmem => hx.2 (h.mem' hmem)⟩

theorem depsCard_le (count : Nat) (deps : Nat → List Nat)
    (Hrange : ∀ u v, v ∈ deps u → v < count) (e : Nat) (he : e < count) :
    (insert e (deps e).toFinset).card ≤ count := by
  calc (insert e (deps e).toFinset).card
      ≤ (Finset.range count).card := by
        apply Finset.card_le_card
        intro x hx
        rw [Finset.mem_insert] at hx
        rw [Finset.mem_range]
        rcases hx with rfl | hx
        · exact he
        · exact Hrange e x (List.mem_toFinset.mp hx)
    _ = count := Finset.card_range count

theorem depsCard_strict (deps : Nat → List Nat)
    (Htrans : ∀ u v w, v ∈ deps u → w ∈ deps v → w ∈ deps u)
    (e d : Nat) (hd : d ∈ deps e) (hnd : e ∉ deps d) :
    (insert d (deps d).toFinset).card < (insert e (deps e).toFinset).card := by
  apply Finset.card_lt_card
  constructor
  · intro x hx
    rw [Finset.mem_insert] at hx
    rw [Finset.mem_insert]
    rcases hx with rfl | hx
    · exact Or.inr (List.mem_toFinset.mpr hd)
    · exact Or.inr (List.mem_toFinset.mpr (Htrans e d x hd (List.mem_toFinset.mp hx)))
  · intro hsub
    have he : e ∈ insert d (deps d).toFinset := hsub (Finset.mem_insert_self e _)
    rw [Finset.mem_insert] at he
    rcases he with rfl | he
    · exact hnd hd
    · exact hnd (List.mem_toFinset.mp he)

/-- Specification-carrying fold: an invariant `Q`, per-element payload `R`
preserved by extension, and each step extending the list. -/
theorem foldl_spec (g : List Nat → Nat → List Nat)
    (Q : List Nat → Prop) (R : Nat → List Nat → Prop)
    (hRmono : ∀ d s s', R d s → Extends s s' → R d s') :
    ∀ (l : List Nat),
      (∀ s d, d ∈ l → Q s → Q (g s d) ∧ Extends s (g s d) ∧ R d (g s d)) →
      ∀ s, Q s →
        Q (l.foldl g s) ∧ Extends s (l.foldl g s) ∧ ∀ d ∈ l, R d (l.foldl g s) := by
  intro l
  induction l with
  | nil =>
      intro _ s hs
      exact ⟨hs, Extends.rfl' s, fun d hd => absurd hd (List.not_mem_nil d)⟩
  | cons a l ih =>
      intro hstep s hs
      obtain ⟨hq1, he1, hr1⟩ := hstep s a (List.mem_cons_self a l) hs
      obtain ⟨hq2, he2, hr2⟩ :=
        ih (fun s' d hd hq => hstep s' d (List.mem_cons_of_mem a hd) hq) (g s a) hq1
      refine ⟨hq2, he1.trans' he2, ?_⟩
      intro d hd
      rcases List.mem_cons.mp hd with rfl | hd
      · exact hRmono d (g s d) _ hr1 he2
      · exact hr2 d hd

/-- Main lemma of the `topo_add` verification: with transitively closed,
range-bounded dependencies and fuel exceeding the termination measure,
`topo_add` preserves the invariant, inserts its element, and only appends. -/
theorem topoAdd_main (count : Nat) (deps : Nat → List Nat)
    (Htrans : ∀ u v w, v ∈ deps u → w ∈ deps v → w ∈ deps u)
    (Hrange : ∀ u v, v ∈ deps u → v < count) :
    ∀ (fuel : Nat) (sorted : List Nat) (element : Nat),
      element < count → element ∉ sorted → TopoInv count deps sorted →
      topoMeasure count deps sorted element + 1 ≤ fuel →
      TopoInv count deps (topoAdd deps fuel sorted element) ∧
        element ∈ topoAdd deps fuel sorted element ∧
        Extends sorted (topoAdd deps fuel sorted element) := by
  intro fuel
  induction fuel using Nat.strong_induction_on with
  | _ fuel IH =>
      intro sorted element he hns hinv hfuel
      cases fuel with
      | zero => omega
      | succ m =>
          simp only [topoAdd]
          have hphase1 :=
            foldl_spec
              (fun s d => if d ∈ s ∨ element ∈ deps d then s else topoAdd deps m s d)
              (fun s => TopoInv count deps s ∧ Extends sorted s)
              (fun d s => element ∉ deps d → d ∈ s)
              (fun d s s' hR hext hnd => hext.mem' (hR hnd))
              (deps element)
              (by
                intro s d hd hQ
                dsimp only
                by_cases hcond : d ∈ s ∨ element ∈ deps d
                · rw [if_pos hcond]
                  refine ⟨hQ, Extends.rfl' s, fun hnd => ?_⟩
                  rcases hcond with h | h
                  · exact h
                  · exact absurd h hnd
                · rw [if_neg hcond]
                  push_neg at hcond
                  obtain ⟨hds, hed⟩ := hcond
                  have h1 : ((Finset.range count).filter (fun x => x ∉ s)).card ≤
                      ((Finset.range count).filter (fun x => x ∉ sorted)).card :=
                    unsortedCard_mono count hQ.2
                  have h2 : (insert d (deps d).toFinset).card <
                      (insert element (deps element).toFinset).card :=
                    depsCard_strict deps Htrans element d hd hed
                  have hmd : topoMeasure count deps s d + 1 ≤ m := by
                    have hmul :
                        ((Finset.range count).filter (fun x => x ∉ s)).card * (count + 2) ≤
                          ((Finset.range count).filter (fun x => x ∉ sorted)).card *
                            (count + 2) :=
                      Nat.mul_le_mul_right _ h1
                    unfold topoMeasure at hfuel ⊢
                    omega
                  obtain ⟨hinv', hd', hext'⟩ :=
                    IH m (by omega) s d (Hrange element d hd) hds hQ.1 hmd
                  exact ⟨⟨hinv', hQ.2.trans' hext'⟩, hext', fun _ => hd'⟩)
              sorted ⟨hinv, Extends.rfl' sorted⟩
          obtain ⟨⟨hinv1, hext1⟩, _, hR1⟩ := hphase1
          set s1 := (deps element).foldl
            (fun s d => if d ∈ s ∨ element ∈ deps d then s else topoAdd deps m s d) sorted
            with hs1
          have hinsert : TopoInv count deps (insertIdem s1 element) ∧
              element ∈ insertIdem s1 element ∧ Extends s1 (insertIdem s1 element) := by
            by_cases hmem : element ∈ s1
            · rw [insertIdem, if_pos hmem]
              exact ⟨hinv1, hmem, Extends.rfl' s1⟩
            · rw [insertIdem, if_neg hmem]
              refine ⟨⟨?_, ?_, ?_⟩, by simp, ⟨[element], rfl⟩⟩
              · intro x hx
                rcases List.mem_append.mp hx with hx | hx
                · exact hinv1.1 x hx
                · rw [List.mem_singleton] at hx
                  rw [hx]
                  exact he
              · rw [List.nodup_append]
                refine ⟨hinv1.2.1, List.nodup_singleton element, ?_⟩
                intro a ha hb
                rw [List.mem_singleton] at hb
                rw [hb] at ha
                exact hmem ha
              · intro u hu v hv hnv
                rcases List.mem_append.mp hu with hu | hu
                · exact (hinv1.2.2 u hu v hv hnv).extends ⟨[element], rfl⟩
                · rw [List.mem_singleton] at hu
                  subst hu
                  exact ⟨s1, [], rfl, hR1 v hv hnv⟩
          have hphase2 :=
            foldl_spec
              (fun s d => if d ∈ s ∨ element ∉ deps d then s else topoAdd deps m s d)
              (fun s => TopoInv count deps s ∧ Extends sorted s ∧ element ∈ s)
              (fun _ _ => True)
              (fun _ _ _ _ _ => trivial)
              (deps element)
              (by
                intro s d hd hQ
                dsimp only
                by_cases hcond : d ∈ s ∨ element ∉ deps d
                · rw [if_pos hcond]
                  exact ⟨hQ, Extends.rfl' s, trivial⟩
                · rw [if_neg hcond]
                  push_neg at hcond
                  obtain ⟨hds, hed⟩ := hcond
                  have h1 : ((Finset.range count).filter (fun x => x ∉ s)).card <
                      ((Finset.range count).filter (fun x => x ∉ sorted)).card :=
                    unsortedCard_strict count hQ.2.1 he hns hQ.2.2
                  have h2 : (insert d (deps d).toFinset).card ≤ count :=
                    depsCard_le count deps Hrange d (Hrange element d hd)
                  have hmd : topoMeasure count deps s d + 1 ≤ m := by
                    have hmul :
                        ((Finset.range count).filter (fun x => x ∉ s)).card * (count + 2) +
                            (count + 2) ≤
                          ((Finset.range count).filter (fun x => x ∉ sorted)).card *
                            (count + 2) := by
                      have hsucc := Nat.succ_le_of_lt h1
                      calc ((Finset.range count).filter (fun x => x ∉ s)).card * (count + 2) +
                            (count + 2)
                          = (((Finset.range count).filter (fun x => x ∉ s)).card + 1) *
                              (count + 2) := by ring
                        _ ≤ ((Finset.range count).filter (fun x => x ∉ sorted)).card *
                              (count + 2) := Nat.mul_le_mul_right _ hsucc
                    unfold topoMeasure at hfuel ⊢
                    omega
                  obtain ⟨hinv', hd', hext'⟩ :=
                    IH m (by omega) s d (Hrange element d hd) hds hQ.1 hmd
                  exact ⟨⟨hinv', hQ.2.1.trans' hext', hext'.mem' hQ.2.2⟩, hext', trivial⟩)
              (insertIdem s1 element)
              ⟨hinsert.1, hext1.trans' hinsert.2.2, hinsert.2.1⟩
          obtain ⟨⟨hinvF, _, helemF⟩, hextF, _⟩ := hphase2
          exact ⟨hinvF, helemF,
            (hext1.trans' hinsert.2.2).trans' hextF⟩

/-- Top-level call of `topo_add` with the standard fuel budget: the element
need not be fresh; the invariant is preserved and the element ends up in the
list. -/
theorem topoAdd_top (count : Nat) (deps : Nat → List Nat)
    (Htrans : ∀ u v w, v ∈ deps u → w ∈ deps v → w ∈ deps u)
    (Hrange : ∀ u v, v ∈ deps u → v < count)
    (sorted : List Nat) (element : Nat)
    (he : element < count) (hinv : TopoInv count deps sorted) :
    TopoInv count deps (topoAdd deps (topoSortFuel count) sorted element) ∧
      element ∈ topoAdd deps (topoSortFuel count) sorted element ∧
      Extends sorted (topoAdd deps (topoSortFuel count) sorted element) := by
  have hsub : ∀ (s : List Nat) (d : Nat), d < count → d ∉ s →
      TopoInv count deps s →
      topoMeasure count deps s d + 1 ≤ count * (count + 2) + count + 1 := by
    intro s d hd hds hinvs
    have h1 := unsortedCard_le count s
    have h2 := depsCard_le count deps Hrange d hd
    have hmul :
        ((Finset.range count).filter (fun x => x ∉ s)).card * (count + 2) ≤
          count * (count + 2) := Nat.mul_le_mul_right _ h1
    unfold topoMeasure
    omega
  by_cases hns : element ∈ sorted
  · have hM : topoSortFuel count = (count * (count + 2) + count + 1) + 1 := by
      unfold topoSortFuel
      omega
    rw [hM]
    generalize hG : count * (count + 2) + count + 1 = M at hsub ⊢
    simp only [topoAdd]
    have hphase1 :=
      foldl_spec
        (fun s d => if d ∈ s ∨ element ∈ deps d then s else topoAdd deps M s d)
        (fun s => TopoInv count deps s ∧ Extends sorted s)
        (fun _ _ => True)
        (fun _ _ _ _ _ => trivial)
        (deps element)
        (by
          intro s d hd hQ
          dsimp only
          by_cases hcond : d ∈ s ∨ element ∈ deps d
          · rw [if_pos hcond]
            exact ⟨hQ, Extends.rfl' s, trivial⟩
          · rw [if_neg hcond]
            push_neg at hcond
            obtain ⟨hds, _⟩ := hcond
            obtain ⟨hinv', hd', hext'⟩ :=
              topoAdd_main count deps Htrans Hrange M s d
                (Hrange element d hd) hds hQ.1
                (hsub s d (Hrange element d hd) hds hQ.1)
            exact ⟨⟨hinv', hQ.2.trans' hext'⟩, hext', trivial⟩)
        sorted ⟨hinv, Extends.rfl' sorted⟩
    obtain ⟨⟨hinv1, hext1⟩, _, _⟩ := hphase1
    set s1 := (deps element).foldl
      (fun s d => if d ∈ s ∨ element ∈ deps d then s else topoAdd deps M s d) sorted
      with hs1
    have hmem1 : element ∈ s1 := hext1.mem' hns
    rw [insertIdem, if_pos hmem1]
    have hphase2 :=
      foldl_spec
        (fun s d => if d ∈ s ∨ element ∉ deps d then s else topoAdd deps M s d)
        (fun s => TopoInv count deps s ∧ Extends sorted s)
        (fun _ _ => True)
        (fun _ _ _ _ _ => trivial)
        (deps element)
        (by
          intro s d hd hQ
          dsimp only
          by_cases hcond : d ∈ s ∨ element ∉ deps d
          · rw [if_pos hcond]
            exact ⟨hQ, Extends.rfl' s, trivial⟩
          · rw [if_neg hcond]
            push_neg at hcond
            obtain ⟨hds, _⟩ := hcond
            obtain ⟨hinv', hd', hext'⟩ :=
              topoAdd_main count deps Htrans Hrange M s d
                (Hrange element d hd) hds hQ.1
                (hsub s d (Hrange element d hd) hds hQ.1)
            exact ⟨⟨hinv', hQ.2.trans' hext'⟩, hext', trivial⟩)
        s1 ⟨hinv1, hext1⟩
    obtain ⟨⟨hinvF, hextF⟩, hextS1, _⟩ := hphase2
    exact ⟨hinvF, hextS1.mem' hmem1, hextF⟩
  · apply topoAdd_main count deps Htrans Hrange _ sorted element he hns hinv
    have h1 := unsortedCard_le count sorted
    have h2 := depsCard_le count deps Hrange element he
    have hmul :
        ((Finset.range count).filter (fun x => x ∉ sorted)).card * (count + 2) ≤
          count * (count + 2) := Nat.mul_le_mul_right _ h1
    unfold topoMeasure topoSortFuel
    omega

/-- `topo_sort` establishes the invariant and visits every index. -/
theorem topoSort_spec (count : Nat) (deps : Nat → List Nat)
    (Htrans : ∀ u v w, v ∈ deps u → w ∈ deps v → w ∈ deps u)
    (Hrange : ∀ u v, v ∈ deps u → v < count) :
    TopoInv count deps (topoSort count deps) ∧
      ∀ i ∈ List.range count, i ∈ topoSort count deps := by
  unfold topoSort
  have h :=
    foldl_spec (fun s i => topoAdd deps (topoSortFuel count) s i)
      (fun s => TopoInv count deps s)
      (fun i s => i ∈ s)
      (fun d s s' hR hext => hext.mem' hR)
      (List.range count)
      (by
        intro s d hd hQ
        dsimp only
        have hdc : d < count := List.mem_range.mp hd
        obtain ⟨h1, h2, h3⟩ := topoAdd_top count deps Htrans Hrange s d hdc hQ
        exact ⟨h1, h3, h2⟩)
      []
      ⟨fun x hx => absurd hx (List.not_mem_nil x), List.nodup_nil,
        fun u hu => absurd hu (List.not_mem_nil u)⟩
  exact ⟨h.1, h.2.2⟩

/-- C9: on a transitively closed, range-bounded dependency map (the shape
`find_dependencies` hands to it), `topo_sort` returns a permutation of the
indices `0..count`, and for every dependency edge `u → v` that lies on no
cycle (`u ∉ deps v`, i.e. `v` does not transitively depend on `u`), `v`
appears strictly before `u` in the returned order. -/
theorem c9_topo_sort (count : Nat) (deps : Nat → List Nat)
    (Htrans : ∀ u v w, v ∈ deps u → w ∈ deps v → w ∈ deps u)
    (Hrange : ∀ u v, v ∈ deps u → v < count) :
    (topoSort count deps).Perm (List.range count) ∧
      ∀ u v, u < count → v ∈ deps u → u ∉ deps v →
        ∃ l1 l2, topoSort count deps = l1 ++ u :: l2 ∧ v ∈ l1 := by
  obtain ⟨⟨hrange, hnodup, hgood⟩, hall⟩ := topoSort_spec count deps Htrans Hrange
  constructor
  · rw [List.perm_ext_iff_of_nodup hnodup (List.nodup_range count)]
    intro a
    constructor
    · intro ha
      exact List.mem_range.mpr (hrange a ha)
    · intro ha
      exact hall a ha
  · intro u v hu hv hnc
    have humem : u ∈ topoSort count deps := hall u (List.mem_range.mpr hu)
    exact hgood u humem v hv hnc

def c9Deps (n : Nat) : List Nat := if n = 1 then [0] else []

/-- Witness for C9 at `count = 2` with the single acyclic edge `1 → 0`. -/
theorem c9_topo_sort_witness :
    (topoSort 2 c9Deps).Perm (List.range 2) ∧
      ∃ l1 l2, topoSort 2 c9Deps = l1 ++ 1 :: l2 ∧ 0 ∈ l1 := by
  have h := c9_topo_sort 2 c9Deps
    (by
      intro u v w hv hw
      unfold c9Deps at hv hw
      by_cases h1 : u = 1
      · rw [if_pos h1] at hv
        rw [List.mem_singleton] at hv
        rw [hv] at hw
        rw [if_neg (by omega)] at hw
        exact absurd hw (List.not_mem_nil w)
      · rw [if_neg h1] at hv
        exact absurd hv (List.not_mem_nil v))
    (by
      intro u v hv
      unfold c9Deps at hv
      by_cases h1 : u = 1
      · rw [if_pos h1] at hv
        rw [List.mem_singleton] at hv
        omega
      · rw [if_neg h1] at hv
        exact absurd hv (List.not_mem_nil v))
  exact ⟨h.1, h.2 1 0 (by decide) (by decide) (by decide)⟩
